import Mathlib

/-!
Verification of the THEGAME belief-functions library (modules
`thegame/element.py` and `thegame/massfunction.py`).

The Python code is shallowly embedded as follows.

* A `DiscreteElement` is a pair of a frame size and an arbitrary-precision
  unsigned encoding (`_size` and `_number` in the source).  The lazily cached
  cardinal `_card` is semantically transparent (the value is immutable), so the
  cardinal is modelled as the function `popcount` applied to the encoding,
  mirroring the bit loop of the `cardinal` property.
* A `MassFunction` stores `focals`, a Python dict from elements to float
  masses.  It is modelled as an association list with unique keys, in
  insertion order, exactly matching dict semantics: `dget` is `__getitem__`
  and `m()`, `addMass` is `add_mass`, `setMass` is `__setitem__`, `popKey` is
  `focals.pop`, `clean`, `normalise`, `msum` (`_sum`) are direct translations.
* Python floats are modelled as exact rationals (`ℚ`); `round(x, 6)` is
  modelled by `round6`, round-half-to-even at six decimals, as documented for
  Python's `round`.
* Methods that raise are modelled with `Except String`; combination bodies are
  modelled after their decorators have accepted the arguments (compatible,
  non-empty inputs), which is the situation all the claims quantify over.
* In-place mutation (the claim about combination rules never mutating their
  inputs) is modelled by an explicit heap of `MassFunction` objects: `Heap` is
  a store indexed by object ids, `halloc`/`hread`/`hwrite` are allocation,
  field read and field write, and each combination rule is re-played as a heap
  program (`smetsH`, …) whose writes are exactly the mutating calls the Python
  body performs, on the objects it performs them on.
-/

set_option maxRecDepth 10000

namespace THEGAME

/-- A discrete element: `_size` is the size of the frame of discernment,
`_number` the integer encoding of the subset (`DiscreteElement` in
`element.py`). -/
structure DElem where
  size : ℕ
  number : ℕ
deriving DecidableEq

/-- The bit-counting loop of the `cardinal` property: repeatedly test the low
bit and shift right. -/
def popcount (n : ℕ) : ℕ :=
  if h : n = 0 then 0 else n % 2 + popcount (n / 2)
decreasing_by exact Nat.div_lt_self (Nat.pos_of_ne_zero h) one_lt_two

/-- `conjunction_unsafe`: bitwise AND of the encodings, frame size taken from
the receiver. -/
def conjE (a b : DElem) : DElem := ⟨a.size, a.number &&& b.number⟩

/-- `disjunction_unsafe`: bitwise OR of the encodings, frame size taken from
the receiver. -/
def disjE (a b : DElem) : DElem := ⟨a.size, a.number ||| b.number⟩

/-- `DiscreteElement.equals` (and hence `==`): the elements must be compatible
(same frame size) and have the same encoding. -/
def elemEquals (a b : DElem) : Bool :=
  decide (a.size = b.size) && decide (a.number = b.number)

/-- `DiscreteElement.__hash__`: the encoding itself. -/
def hashE (a : DElem) : ℕ := a.number

/-- The documented invariant of a discrete element:
`0 <= encoding < 2^frame_size` with a positive frame size. -/
def elemInv (e : DElem) : Prop := 0 < e.size ∧ e.number < 2 ^ e.size

/-- `is_subset`: compatibility check, then `conjunction_unsafe(element) ==
self`. -/
def isSubsetE (a b : DElem) : Prop :=
  a.size = b.size ∧ a.number &&& b.number = a.number

instance (a b : DElem) : Decidable (isSubsetE a b) := by
  unfold isSubsetE
  infer_instance

/-- The safe constructor `DiscreteElement.__init__(size, number)`, with the
Python `int` arguments modelled as `ℤ`.  It raises `ValueError` when
`size <= 0`, short-circuits `number == 0` and `number == 2^size - 1`, and
raises `IncompatibleSizeAndNumberError` unless `0 <= number < 2^size`. -/
def delemInit (size number : ℤ) : Except String DElem :=
  if size ≤ 0 then Except.error "ValueError: nonpositive size"
  else if number = 0 then Except.ok ⟨size.toNat, 0⟩
  else if number = 2 ^ size.toNat - 1 then Except.ok ⟨size.toNat, number.toNat⟩
  else if ¬ (0 ≤ number ∧ number < 2 ^ size.toNat) then
    Except.error "IncompatibleSizeAndNumberError"
  else Except.ok ⟨size.toNat, number.toNat⟩

/-- `DiscreteElement.opposite`: calls the safe constructor with
`(1 << size) - 1 - number`. -/
def oppositeS (a : DElem) : Except String DElem :=
  delemInit (a.size : ℤ) (2 ^ a.size - 1 - (a.number : ℤ))

/-- Safe `conjunction`: the `@check_elements_compatibility` decorator raises
unless the frame sizes agree, then the safe constructor is called on the
bitwise AND. -/
def conjunctionS (a b : DElem) : Except String DElem :=
  if a.size = b.size then delemInit (a.size : ℤ) ((a.number &&& b.number : ℕ) : ℤ)
  else Except.error "IncompatibleElementsError"

/-- Safe `disjunction`, analogously with bitwise OR. -/
def disjunctionS (a b : DElem) : Except String DElem :=
  if a.size = b.size then delemInit (a.size : ℤ) ((a.number ||| b.number : ℕ) : ℤ)
  else Except.error "IncompatibleElementsError"

/-- `exclusion`: `self.conjunction(element.opposite())`. -/
def exclusionS (a b : DElem) : Except String DElem := do
  let ob ← oppositeS b
  conjunctionS a ob

/-- A mass function: the `focals` dict as an association list in insertion
order with unique keys. -/
abbrev MF := List (DElem × ℚ)

/-- `MassFunction.precision = 0.000001`. -/
def precision : ℚ := 1 / 1000000

/-- `__getitem__` / `m()` / `mass()`: the stored value, or 0 when absent. -/
def dget : MF → DElem → ℚ
  | [], _ => 0
  | (k, w) :: t, e => if k = e then w else dget t e

/-- Key membership (`elem in focals`). -/
def dmem : MF → DElem → Bool
  | [], _ => false
  | (k, _) :: t, e => if k = e then true else dmem t e

/-- `add_mass` for a single focal: accumulate onto an existing entry, or
append a new entry (dicts keep insertion order). -/
def addMass : MF → DElem → ℚ → MF
  | [], e, v => [(e, v)]
  | (k, w) :: t, e, v => if k = e then (k, w + v) :: t else (k, w) :: addMass t e v

/-- `__setitem__`: overwrite an existing entry, or append a new one. -/
def setMass : MF → DElem → ℚ → MF
  | [], e, v => [(e, v)]
  | (k, w) :: t, e, v => if k = e then (k, v) :: t else (k, w) :: setMass t e v

/-- `focals.pop(e, None)`: drop the entry with the given key, if present. -/
def popKey : MF → DElem → MF
  | [], _ => []
  | (k, w) :: t, e => if k = e then t else (k, w) :: popKey t e

/-- A sequence of `add_mass` calls (the accumulation loops of the combination
rules). -/
def addAll (m : MF) (l : List (DElem × ℚ)) : MF :=
  l.foldl (fun acc p => addMass acc p.1 p.2) m

/-- `clean`: keep exactly the focals whose value is at least `precision`. -/
def clean (m : MF) : MF := m.filter (fun p => precision ≤ p.2)

/-- `_sum`: the sum of all stored masses. -/
def msum (m : MF) : ℚ := (m.map Prod.snd).sum

/-- `normalise`: divide every mass by the current sum, a no-op when the sum is
zero. -/
def normalise (m : MF) : MF :=
  let s := msum m
  if s = 0 then m else m.map (fun p => (p.1, p.2 / s))

/-- `has_valid_values`: every mass lies in `[0, 1]`. -/
def hasValidValues (m : MF) : Bool :=
  m.all (fun p => decide (0 ≤ p.2) && decide (p.2 ≤ 1))

/-- `has_valid_sum`: the sum lies within `precision` of 1. -/
def hasValidSum (m : MF) : Bool :=
  decide (1 - precision ≤ msum m) && decide (msum m ≤ 1 + precision)

/-- Round an exact rational to the nearest integer, ties to even (the
behaviour documented for Python's `round`). -/
def rhe (x : ℚ) : ℤ :=
  let f := ⌊x⌋
  if 2 * x < 2 * (f : ℚ) + 1 then f
  else if 2 * (f : ℚ) + 1 < 2 * x then f + 1
  else if f % 2 = 0 then f else f + 1

/-- `round(x, 6)`. -/
def round6 (x : ℚ) : ℚ := (rhe (x * 1000000) : ℚ) / 1000000

/-- One direction of `MassFunction.__eq__`: every focal of `a` must be present
in `b` (unless its mass is 0), and the two masses, rounded to 6 decimals, must
agree (`b[focal]` is 0 when absent). -/
def mfeqHalf (a b : MF) : Bool :=
  a.all (fun p => (dmem b p.1 || decide (p.2 = 0)) &&
    decide (round6 (dget b p.1) = round6 p.2))

/-- `MassFunction.__eq__`: both directions of `mfeqHalf`. -/
def mfeq (a b : MF) : Bool := mfeqHalf a b && mfeqHalf b a

/-- The focal keys are pairwise distinct (dict semantics). -/
def keysND (m : MF) : Prop := (m.map Prod.fst).Nodup

/-- The total mass a raw pair list carries on a given key. -/
def sumAt (l : List (DElem × ℚ)) (e : DElem) : ℚ :=
  (l.map (fun p => if p.1 = e then p.2 else 0)).sum

/-- All focals of the mass function live on the frame of the given size
(mutual compatibility of focal elements). -/
def sameFrame (s : ℕ) (m : MF) : Prop := ∀ p ∈ m, p.1.size = s

/-- `bel`: 0 for the empty element, for an empty mass function or for an
element incompatible with the first focal; otherwise the rounded sum of the
masses of the non-empty focals that are subsets of the element. -/
def bel (m : MF) (e : DElem) : ℚ :=
  if e.number = 0 then 0
  else if msum m = 0 then 0
  else
    match m.head? with
    | none => 0
    | some p0 =>
      if e.size = p0.1.size then
        round6 (m.foldl
          (fun acc p => if p.1.number ≠ 0 ∧ isSubsetE p.1 e then acc + p.2 else acc) 0)
      else 0

/-- `betP`: 0 for the empty element, for an empty mass function or for an
incompatible element; otherwise the rounded pignistic sum. -/
def betP (m : MF) (e : DElem) : ℚ :=
  if e.number = 0 then 0
  else if msum m = 0 then 0
  else
    match m.head? with
    | none => 0
    | some p0 =>
      if e.size = p0.1.size then
        round6 (m.foldl
          (fun acc p => if p.1.number ≠ 0 then
            acc + p.2 * (popcount (p.1.number &&& e.number) : ℚ) / (popcount p.1.number : ℚ)
          else acc) 0)
      else 0

/-- `pl`: 0 for an empty mass function, the total stored mass for the empty
element, 0 for an incompatible element; otherwise the rounded sum of the
masses of the focals meeting the element. -/
def pl (m : MF) (e : DElem) : ℚ :=
  if msum m = 0 then 0
  else if e.number = 0 then msum m
  else
    match m.head? with
    | none => 0
    | some p0 =>
      if e.size = p0.1.size then
        round6 (m.foldl
          (fun acc p => if e.number &&& p.1.number ≠ 0 then acc + p.2 else acc) 0)
      else 0

/-- `q` (commonality): 0 for an empty mass function, the total stored mass for
the empty element, 0 for an incompatible element; otherwise the rounded sum of
the masses of the focals that are supersets of the element. -/
def q (m : MF) (e : DElem) : ℚ :=
  if msum m = 0 then 0
  else if e.number = 0 then msum m
  else
    match m.head? with
    | none => 0
    | some p0 =>
      if e.size = p0.1.size then
        round6 (m.foldl
          (fun acc p => if isSubsetE e p.1 then acc + p.2 else acc) 0)
      else 0

/-- `specificity`: the rounded sum of `mass / cardinal` over the focals of
positive cardinal. -/
def specificity (m : MF) : ℚ :=
  round6 (m.foldl
    (fun acc p => if 0 < popcount p.1.number then
      acc + p.2 / (popcount p.1.number : ℚ)
    else acc) 0)

/-- The cross product of the two focal sets, each pair mapped to the
conjunction of the elements and the product of the masses, in the order of the
two nested loops of `combination_smets.combination_two`. -/
def smetsPairs (m1 m2 : MF) : List (DElem × ℚ) :=
  m1.flatMap (fun p1 => m2.map (fun p2 => (conjE p1.1 p2.1, p1.2 * p2.2)))

/-- The accumulated cross product before `clean` (the contents of
`combination` at the end of the two loops of Smets' rule). -/
def smetsRaw (m1 m2 : MF) : MF := addAll [] (smetsPairs m1 m2)

/-- Binary `combination_smets`: accumulate every `m1*m2` product on the
conjunction of the focals, then `clean`.  The n-ary rule is the left fold of
this binary operator. -/
def combination_smets (m1 m2 : MF) : MF := clean (smetsRaw m1 m2)

/-- As `smetsPairs` with disjunctions. -/
def disjPairs (m1 m2 : MF) : List (DElem × ℚ) :=
  m1.flatMap (fun p1 => m2.map (fun p2 => (disjE p1.1 p2.1, p1.2 * p2.2)))

/-- The common shape of the Smets and disjunctive cross products, with the
element operation abstracted (`smetsPairs` is `genPairs conjE` and
`disjPairs` is `genPairs disjE`, definitionally). -/
def genPairs (op : DElem → DElem → DElem) (m1 m2 : MF) : List (DElem × ℚ) :=
  m1.flatMap (fun p1 => m2.map (fun p2 => (op p1.1 p2.1, p1.2 * p2.2)))

/-- Binary `combination_disjunctive`; the n-ary rule is the left fold. -/
def combination_disjunctive (m1 m2 : MF) : MF := clean (addAll [] (disjPairs m1 m2))

/-- Binary `combination_yager`: Smets' combination, then
`combination[complete] = combination.mass(empty)` (an overwriting
`__setitem__`, not an accumulation) and `pop` of the empty element.  The empty
and complete elements are built from the frame of the first focal of the Smets
result; on an empty Smets result `next(iter(...))` would raise
`StopIteration`, modelled by returning the empty result unchanged. -/
def combination_yager (m1 m2 : MF) : MF :=
  let c := combination_smets m1 m2
  match c.head? with
  | none => c
  | some p0 =>
    let empty : DElem := ⟨p0.1.size, 0⟩
    let complete : DElem := ⟨p0.1.size, 2 ^ p0.1.size - 1⟩
    popKey (setMass c complete (dget c empty)) empty

/-- `combination_dempster.combination_two` before the final `normalise`:
Smets' combination, `pop` of the empty element, `clean`. -/
def dempsterPre (m1 m2 : MF) : MF :=
  let c := combination_smets m1 m2
  match c.head? with
  | none => c
  | some p0 => clean (popKey c ⟨p0.1.size, 0⟩)

/-- Binary `combination_dempster`: Smets, drop the empty element, `clean`,
`normalise`.  The n-ary rule is the left fold of this binary operator. -/
def combination_dempster (m1 m2 : MF) : MF := normalise (dempsterPre m1 m2)

/-- The Cartesian product of `combination_dubois_prade` for two mass
functions: conjunction of each pair of focals, falling back to the disjunction
when the conjunction is empty; masses looked up through `m()`. -/
def duboisPairs (m1 m2 : MF) : List (DElem × ℚ) :=
  (m1.map Prod.fst).flatMap (fun e1 =>
    (m2.map Prod.fst).map (fun e2 =>
      let c := conjE e1 e2
      (if c.number = 0 then disjE e1 e2 else c, dget m1 e1 * dget m2 e2)))

/-- Binary `combination_dubois_prade`. -/
def combination_dubois_prade (m1 m2 : MF) : MF := clean (addAll [] (duboisPairs m1 m2))

/-- Binary `combination_average`: deep-copy the receiver, `add_mass` every
focal of the argument, then divide every mass by 2 (`len(mass_functions) + 1`). -/
def combination_average (m1 m2 : MF) : MF :=
  (addAll m1 m2).map (fun p => (p.1, p.2 / 2))

/-- Binary `combination_murphy`: the average, Dempster-combined with itself
once. -/
def combination_murphy (m1 m2 : MF) : MF :=
  let av := combination_average m1 m2
  combination_dempster av av

/-- `discounting(alpha)`: build a fresh mass function with every mass scaled
by `(1 - alpha)` and rounded to 6 decimals, then `add_mass` `alpha` on the
complete element of the frame of the last focal iterated (the loop variable
leaks in the source).  The decorator raises on an empty receiver and the body
on `alpha` outside `[0, 1]`; every use below is on a non-empty mass function
with `alpha` in `[0, 1]`. -/
def discounting (m : MF) (alpha : ℚ) : MF :=
  let base := addAll [] (m.map (fun p => (p.1, round6 (p.2 * (1 - alpha)))))
  match m.getLast? with
  | none => base
  | some pl0 => addMass base ⟨pl0.1.size, 2 ^ pl0.1.size - 1⟩ alpha

/-- `weakening(alpha)`: identical to `discounting` except the freed mass goes
to the empty element. -/
def weakening (m : MF) (alpha : ℚ) : MF :=
  let base := addAll [] (m.map (fun p => (p.1, round6 (p.2 * (1 - alpha)))))
  match m.getLast? with
  | none => base
  | some pl0 => addMass base ⟨pl0.1.size, 0⟩ alpha

/-- `conditioning(element)`: Smets-combine with the categorical mass function
`{element: 1}` (after the compatibility check of the source). -/
def conditioning (m : MF) (e : DElem) : MF :=
  combination_smets m [(e, 1)]

/-- `temporisation_specificity(old_time, new_time, max_time,
new_mass_function, got_data)`, returning
`(temporised, new_old_time, new_old_mass_function)`.  `copy.deepcopy` of a
mass function is the value itself in this value model. -/
def temporisation_specificity (m : MF) (old_time new_time max_time : ℚ)
    (new_mass_function : MF) (got_data : Bool) : MF × ℚ × MF :=
  if old_time = -1 then (new_mass_function, new_time, new_mass_function)
  else
    let elapsed := new_time - old_time
    if elapsed > max_time then (new_mass_function, new_time, new_mass_function)
    else
      let alpha := elapsed / max_time
      let discounted := discounting m alpha
      if ¬ got_data then (discounted, old_time, m)
      else if specificity new_mass_function ≥ specificity discounted then
        (new_mass_function, new_time, new_mass_function)
      else (discounted, old_time, m)

/-- `temporisation_fusion(old_time, new_time, max_time, new_mass_function,
got_data, combination_rule)`.  The combination rule (default Dubois-Prade) is
abstracted as the binary combination function `comb`. -/
def temporisation_fusion (m : MF) (old_time new_time max_time : ℚ)
    (new_mass_function : MF) (got_data : Bool) (comb : MF → MF → MF) : MF × ℚ × MF :=
  if old_time = -1 then (new_mass_function, new_time, new_mass_function)
  else
    let elapsed := new_time - old_time
    let alpha := if elapsed < max_time then elapsed / max_time else 1
    let discounted := discounting m alpha
    if ¬ got_data then (discounted, old_time, m)
    else
      let temporised := comb discounted new_mass_function
      (temporised, new_time, temporised)

/-- The cardinality filter of the extrema search: `0 < e.cardinal <=
max_card`. -/
def qualifies (maxCard : ℤ) (e : DElem) : Prop :=
  0 < popcount e.number ∧ (popcount e.number : ℤ) ≤ maxCard

instance (maxCard : ℤ) (e : DElem) : Decidable (qualifies maxCard e) := by
  unfold qualifies
  infer_instance

/-- The accumulation loop of `get_min`.  `minima` collects the current ties,
`cur` the current minimum (only read once `minima` is non-empty, so the
initial sentinel `1000000000` of the source is irrelevant). -/
def getMinLoop (crit : DElem → ℚ) (maxCard : ℤ) :
    List DElem → List (DElem × ℚ) → ℚ → List (DElem × ℚ)
  | [], minima, _ => minima
  | e :: rest, minima, cur =>
    if qualifies maxCard e then
      if minima = [] then getMinLoop crit maxCard rest [(e, crit e)] (crit e)
      else
        let nc := crit e
        if nc = cur then getMinLoop crit maxCard rest (minima ++ [(e, cur)]) cur
        else if nc < cur then getMinLoop crit maxCard rest [(e, nc)] nc
        else getMinLoop crit maxCard rest minima cur
    else getMinLoop crit maxCard rest minima cur

/-- `get_min(criterion, max_card, elements)`: `ValueError` when
`max_card <= 0`, otherwise the loop over the candidates. -/
def get_min (crit : DElem → ℚ) (maxCard : ℤ) (elems : List DElem) :
    Except String (List (DElem × ℚ)) :=
  if maxCard ≤ 0 then Except.error "ValueError: nonpositive max_card"
  else Except.ok (getMinLoop crit maxCard elems [] 1000000000)

/-- The accumulation loop of `get_max` (initial sentinel 0, likewise never
read). -/
def getMaxLoop (crit : DElem → ℚ) (maxCard : ℤ) :
    List DElem → List (DElem × ℚ) → ℚ → List (DElem × ℚ)
  | [], maxima, _ => maxima
  | e :: rest, maxima, cur =>
    if qualifies maxCard e then
      if maxima = [] then getMaxLoop crit maxCard rest [(e, crit e)] (crit e)
      else
        let nc := crit e
        if nc = cur then getMaxLoop crit maxCard rest (maxima ++ [(e, cur)]) cur
        else if cur < nc then getMaxLoop crit maxCard rest [(e, nc)] nc
        else getMaxLoop crit maxCard rest maxima cur
    else getMaxLoop crit maxCard rest maxima cur

/-- `get_max(criterion, max_card, elements)`. -/
def get_max (crit : DElem → ℚ) (maxCard : ℤ) (elems : List DElem) :
    Except String (List (DElem × ℚ)) :=
  if maxCard ≤ 0 then Except.error "ValueError: nonpositive max_card"
  else Except.ok (getMaxLoop crit maxCard elems [] 0)

/-- The loop invariant of `get_min`: either nothing qualifying has been seen
and `minima` is empty, or `cur` is the least criterion value over the
qualifying candidates processed so far and `minima` lists exactly the
qualifying candidates attaining it. -/
def MinInv (crit : DElem → ℚ) (mc : ℤ) (processed : List DElem)
    (minima : List (DElem × ℚ)) (cur : ℚ) : Prop :=
  (minima = [] ∧ ∀ e ∈ processed, ¬ qualifies mc e) ∨
    ((∃ e0 ∈ processed, qualifies mc e0 ∧ crit e0 = cur) ∧
      (∀ e ∈ processed, qualifies mc e → cur ≤ crit e) ∧
      (∀ pr : DElem × ℚ, pr ∈ minima ↔
        (pr.1 ∈ processed ∧ qualifies mc pr.1 ∧ crit pr.1 = cur ∧ pr.2 = cur)))

/-- The mirrored loop invariant of `get_max`. -/
def MaxInv (crit : DElem → ℚ) (mc : ℤ) (processed : List DElem)
    (maxima : List (DElem × ℚ)) (cur : ℚ) : Prop :=
  (maxima = [] ∧ ∀ e ∈ processed, ¬ qualifies mc e) ∨
    ((∃ e0 ∈ processed, qualifies mc e0 ∧ crit e0 = cur) ∧
      (∀ e ∈ processed, qualifies mc e → crit e ≤ cur) ∧
      (∀ pr : DElem × ℚ, pr ∈ maxima ↔
        (pr.1 ∈ processed ∧ qualifies mc pr.1 ∧ crit pr.1 = cur ∧ pr.2 = cur)))

/-- A constant criterion, used to witness the extrema-search theorem. -/
def critW : DElem → ℚ := fun _ => 0

/-- The heap of `MassFunction` objects: the focal map of each live object,
indexed by object id. -/
abbrev Heap := List MF

/-- Read the focal map of an object. -/
def hread (h : Heap) (i : ℕ) : MF := h.getD i []

/-- Overwrite the focal map of an object (an in-place mutation). -/
def hwrite (h : Heap) (i : ℕ) (m : MF) : Heap := h.set i m

/-- Allocate a fresh `MassFunction` object and return its id. -/
def halloc (h : Heap) (m : MF) : Heap × ℕ := (h ++ [m], h.length)

/-- `obj.add_mass((e, v))` on the object `i`. -/
def addMassH (h : Heap) (i : ℕ) (e : DElem) (v : ℚ) : Heap :=
  hwrite h i (addMass (hread h i) e v)

/-- `obj[e] = v` on the object `i`. -/
def setMassH (h : Heap) (i : ℕ) (e : DElem) (v : ℚ) : Heap :=
  hwrite h i (setMass (hread h i) e v)

/-- `obj.focals.pop(e, None)` on the object `i`. -/
def popKeyH (h : Heap) (i : ℕ) (e : DElem) : Heap :=
  hwrite h i (popKey (hread h i) e)

/-- `obj.clean()` on the object `i`. -/
def cleanH (h : Heap) (i : ℕ) : Heap :=
  hwrite h i (clean (hread h i))

/-- `obj.normalise()` on the object `i`. -/
def normaliseH (h : Heap) (i : ℕ) : Heap :=
  hwrite h i (normalise (hread h i))

/-- `combination_smets.combination_two(m1, m2)` as a heap program:
`combination = MassFunction()`, the two accumulation loops of `add_mass`
calls on `combination`, then `combination.clean()`. -/
def smetsH (h : Heap) (i j : ℕ) : Heap × ℕ :=
  let a := hread h i
  let b := hread h j
  let h1 := (halloc h []).1
  let r := (halloc h []).2
  let h2 := a.foldl (fun hh p1 =>
    b.foldl (fun hh2 p2 => addMassH hh2 r (conjE p1.1 p2.1) (p1.2 * p2.2)) hh) h1
  (cleanH h2 r, r)

/-- `combination_disjunctive.combination_two` as a heap program. -/
def disjunctiveH (h : Heap) (i j : ℕ) : Heap × ℕ :=
  let a := hread h i
  let b := hread h j
  let h1 := (halloc h []).1
  let r := (halloc h []).2
  let h2 := a.foldl (fun hh p1 =>
    b.foldl (fun hh2 p2 => addMassH hh2 r (disjE p1.1 p2.1) (p1.2 * p2.2)) hh) h1
  (cleanH h2 r, r)

/-- `combination_dempster.combination_two` as a heap program: Smets, then
`pop`, `clean` and `normalise`, all on the freshly built combination. -/
def dempsterH (h : Heap) (i j : ℕ) : Heap × ℕ :=
  let h1 := (smetsH h i j).1
  let r := (smetsH h i j).2
  match (hread h1 r).head? with
  | none => (h1, r)
  | some p0 => (normaliseH (cleanH (popKeyH h1 r ⟨p0.1.size, 0⟩) r) r, r)

/-- `combination_yager` (binary) as a heap program: Smets, then the
overwriting `__setitem__` on the complete element and the `pop` of the empty
element, both on the combination. -/
def yagerH (h : Heap) (i j : ℕ) : Heap × ℕ :=
  let h1 := (smetsH h i j).1
  let r := (smetsH h i j).2
  match (hread h1 r).head? with
  | none => (h1, r)
  | some p0 =>
    let empty : DElem := ⟨p0.1.size, 0⟩
    let complete : DElem := ⟨p0.1.size, 2 ^ p0.1.size - 1⟩
    (popKeyH (setMassH h1 r complete (dget (hread h1 r) empty)) r empty, r)

/-- `combination_dubois_prade` (binary) as a heap program. -/
def duboisH (h : Heap) (i j : ℕ) : Heap × ℕ :=
  let a := hread h i
  let b := hread h j
  let h1 := (halloc h []).1
  let r := (halloc h []).2
  let h2 := (duboisPairs a b).foldl (fun hh p => addMassH hh r p.1 p.2) h1
  (cleanH h2 r, r)

/-- `combination_average` (binary) as a heap program: `copy.deepcopy(self)`
allocates a fresh object, the loop of `add_mass` calls and the dividing
`__setitem__` loop both run on the copy. -/
def averageH (h : Heap) (i j : ℕ) : Heap × ℕ :=
  let h1 := (halloc h (hread h i)).1
  let r := (halloc h (hread h i)).2
  let b := hread h1 j
  let h2 := b.foldl (fun hh p => addMassH hh r p.1 p.2) h1
  (hwrite h2 r ((hread h2 r).map (fun p => (p.1, p.2 / 2))), r)

/-- `combination_murphy` (binary) as a heap program: average, then Dempster of
the average with itself. -/
def murphyH (h : Heap) (i j : ℕ) : Heap × ℕ :=
  dempsterH (averageH h i j).1 (averageH h i j).2 (averageH h i j).2

/-- `combination_chen` (binary) as a heap program.  The two credibility
weights (computed by `MassFunction.credibility` from pairwise Jousselme
distances, which involve real square roots and cosines and mutate nothing)
are abstracted as the parameters `c1`, `c2`; the weighted accumulation and the
final Dempster combination run on freshly allocated objects. -/
def chenH (h : Heap) (i j : ℕ) (c1 c2 : ℚ) : Heap × ℕ :=
  let a := hread h i
  let b := hread h j
  let h1 := (halloc h []).1
  let r := (halloc h []).2
  let h2 := a.foldl (fun hh p => addMassH hh r p.1 (p.2 * c1)) h1
  let h3 := b.foldl (fun hh p => addMassH hh r p.1 (p.2 * c2)) h2
  dempsterH h3 r r

/-- `discounting(alpha)` as a heap program: a fresh result object receives all
the `add_mass` calls. -/
def discountingH (h : Heap) (i : ℕ) (alpha : ℚ) : Heap × ℕ :=
  let a := hread h i
  let h1 := (halloc h []).1
  let r := (halloc h []).2
  let h2 := a.foldl (fun hh p => addMassH hh r p.1 (round6 (p.2 * (1 - alpha)))) h1
  match a.getLast? with
  | none => (h2, r)
  | some pl0 => (addMassH h2 r ⟨pl0.1.size, 2 ^ pl0.1.size - 1⟩ alpha, r)

/-- `weakening(alpha)` as a heap program. -/
def weakeningH (h : Heap) (i : ℕ) (alpha : ℚ) : Heap × ℕ :=
  let a := hread h i
  let h1 := (halloc h []).1
  let r := (halloc h []).2
  let h2 := a.foldl (fun hh p => addMassH hh r p.1 (round6 (p.2 * (1 - alpha)))) h1
  match a.getLast? with
  | none => (h2, r)
  | some pl0 => (addMassH h2 r ⟨pl0.1.size, 0⟩ alpha, r)

/-- `conditioning(element)` as a heap program: the categorical condition is a
fresh object, then Smets runs on it and the receiver. -/
def conditioningH (h : Heap) (i : ℕ) (e : DElem) : Heap × ℕ :=
  smetsH (halloc h [(e, 1)]).1 i (halloc h [(e, 1)]).2

/-- `h2` extends `h`: the heap grew only by fresh allocations and writes to
them. -/
def HExt (h h2 : Heap) : Prop := ∃ t, h2 = h ++ t

/-- Test fixture of `tests_massfunction.py`: the singletons of the 3-state
frame built from the binary strings 001, 010, 100, and the worked Dempster
fixture masses. -/
def mC5a : MF := [(⟨3, 1⟩, 1/2), (⟨3, 2⟩, 1/5), (⟨3, 4⟩, 3/10)]

/-- The second mass function of the worked Dempster fixture. -/
def mC5b : MF := [(⟨3, 1⟩, 0), (⟨3, 2⟩, 9/10), (⟨3, 4⟩, 1/10)]

/-- The expected Dempster combination of the fixture, rounded to 6 decimals. -/
def mC5exp : MF := [(⟨3, 2⟩, 857143/1000000), (⟨3, 4⟩, 142857/1000000)]

/-- The vacuous mass function on a 1-state frame: all mass on the complete
element. -/
def mVac1 : MF := [(⟨1, 1⟩, 1)]

/-- A valid mass function putting almost all mass on one singleton of a
2-state frame. -/
def mC4a : MF := [(⟨2, 1⟩, 9999999/10000000), (⟨2, 2⟩, 1/10000000)]

/-- The categorical mass function on the other singleton. -/
def mC4b : MF := [(⟨2, 2⟩, 1)]

/-- An old (vacuous) belief state on a 2-state frame, for the temporisation
counterexample. -/
def mOldT : MF := [(⟨2, 3⟩, 1)]

/-- A newly acquired categorical mass function on the same frame. -/
def mNewT : MF := [(⟨2, 1⟩, 1)]

/-- First operand of the Smets associativity counterexample: a sub-precision
mass next to a unit mass. -/
def nS1 : MF := [(⟨2, 1⟩, 1/2000000), (⟨2, 3⟩, 1)]

/-- Second operand of the Smets associativity counterexample. -/
def nS2 : MF := [(⟨2, 3⟩, 1)]

/-- Third operand of the Smets associativity counterexample. -/
def nS3 : MF := [(⟨2, 3⟩, 2)]

/-- First operand of the disjunctive associativity counterexample. -/
def nD1 : MF := [(⟨2, 1⟩, 1/2000000), (⟨2, 2⟩, 1)]

/-- Second operand of the disjunctive associativity counterexample. -/
def nD2 : MF := [(⟨2, 2⟩, 1)]

/-- Third operand of the disjunctive associativity counterexample. -/
def nD3 : MF := [(⟨2, 2⟩, 2)]

/-- A valid mass function on the 2-state frame used as Dempster witness
input. -/
def mW4 : MF := [(⟨2, 1⟩, 1/2), (⟨2, 3⟩, 1/2)]

/-!  Helper lemmas about the dictionary model. -/

theorem msum_map_div (l : MF) (s : ℚ) :
    msum (l.map (fun p => (p.1, p.2 / s))) = msum l / s := by
  induction l with
  | nil => simp [msum]
  | cons p t ih =>
    simp only [List.map_cons, msum, List.sum_cons] at ih ⊢
    rw [ih, add_div]

theorem msum_normalise (m : MF) (h : msum m ≠ 0) : msum (normalise m) = 1 := by
  simp only [normalise, if_neg h]
  rw [msum_map_div, div_self h]

/-!  C1 — Yager's rule. -/

/-- C1 (code evaluation at the failing input): combining the vacuous mass
function on a 1-state frame with itself by Yager's rule yields total mass 0,
not 1.  The Smets combination is `{complete: 1}` with no conflict, and
`combination[complete] = combination.mass(empty)` overwrites the mass of the
complete element with 0 instead of adding the conflict to it, so the mass the
Smets step placed on the complete element is discarded. -/
theorem yager_total_mass_zero_on_vacuous :
    msum (combination_yager mVac1 mVac1) = 0 ∧
      hasValidSum (combination_yager mVac1 mVac1) = false := by
  norm_num [combination_yager, combination_smets, smetsRaw, smetsPairs, addAll,
    addMass, clean, precision, msum, conjE, mVac1, dget, setMass, popKey,
    hasValidSum, List.flatMap]

/-!  C2 — element equality and hash. -/

/-- C2 counterexample: the elements of frame sizes 2 and 3 sharing the
encoding 1 have equal hashes, but `==` (which is `equals`, and first checks
compatibility of the frame sizes) is `False` on them, so equality is not
defined over the encoding only. -/
theorem elem_eq_counterexample :
    hashE ⟨2, 1⟩ = hashE ⟨3, 1⟩ ∧ elemEquals ⟨2, 1⟩ ⟨3, 1⟩ = false := by
  decide

/-- C2 amended: the hash is defined over the encoding only (equal encodings
give equal hashes whatever the frame sizes), but `==` additionally requires
equal frame sizes: for elements with equal encodings, `a == b` holds exactly
when the frame sizes also agree. -/
theorem elem_eq_hash_amended (a b : DElem) (h : a.number = b.number) :
    hashE a = hashE b ∧ (elemEquals a b = true ↔ a.size = b.size) := by
  constructor
  · simp [hashE, h]
  · simp [elemEquals, h]

/-- Witness for `elem_eq_hash_amended` at the encoding-1 elements of frame
sizes 2 and 3. -/
theorem elem_eq_hash_amended_witness :
    hashE ⟨2, 1⟩ = hashE ⟨3, 1⟩ ∧
      (elemEquals ⟨2, 1⟩ ⟨3, 1⟩ = true ↔ (⟨2, 1⟩ : DElem).size = (⟨3, 1⟩ : DElem).size) :=
  elem_eq_hash_amended ⟨2, 1⟩ ⟨3, 1⟩ rfl

/-!  C3 — temporisation at the decay boundary. -/

/-- C3 counterexample: with `old_time = 0`, `new_time = 10`, `max_time = 10`
(so the elapsed time equals `max_time`) and `got_data = False`, both
temporisation strategies keep the old timestamp 0 instead of adopting the new
mass function with timestamp 10. -/
theorem temporisation_counterexample :
    (0 : ℚ) ≠ -1 ∧ (10 : ℚ) - 0 ≥ 10 ∧
      (temporisation_specificity mOldT 0 10 10 mNewT false).2.1 ≠ 10 ∧
      (temporisation_fusion mOldT 0 10 10 mNewT false combination_dubois_prade).2.1 ≠ 10 := by
  norm_num [temporisation_specificity, temporisation_fusion]

/-- C3 amended: `temporisation_specificity` adopts `new_mass_function`
unconditionally (returning it with timestamp `new_time` regardless of
`got_data`) only when the elapsed time strictly exceeds `max_time`;
`temporisation_fusion` has no unconditional-adoption branch at all: for any
elapsed time at least `max_time` it discounts with `alpha = 1` and returns the
discounted function with the old timestamp when `got_data` is false, and the
combination of the discounted function with the new one (with the new
timestamp) when `got_data` is true. -/
theorem temporisation_amended (m nm : MF) (ot nt mt : ℚ) (gd : Bool)
    (comb : MF → MF → MF) (h0 : ot ≠ -1) :
    (mt < nt - ot → temporisation_specificity m ot nt mt nm gd = (nm, nt, nm)) ∧
      (mt ≤ nt - ot → gd = false →
        temporisation_fusion m ot nt mt nm gd comb = (discounting m 1, ot, m)) ∧
      (mt ≤ nt - ot → gd = true →
        temporisation_fusion m ot nt mt nm gd comb =
          (comb (discounting m 1) nm, nt, comb (discounting m 1) nm)) := by
  refine ⟨fun hlt => ?_, fun hle hgd => ?_, fun hle hgd => ?_⟩
  · simp only [temporisation_specificity, if_neg h0, gt_iff_lt, if_pos hlt]
  · simp only [temporisation_fusion, if_neg h0, if_neg (not_lt.mpr hle), hgd]
    simp
  · simp only [temporisation_fusion, if_neg h0, if_neg (not_lt.mpr hle), hgd]
    simp

/-- Witness for `temporisation_amended` with elapsed time 11 over a maximum of
10. -/
theorem temporisation_amended_witness :
    ((10 : ℚ) < 11 - 0 →
      temporisation_specificity mOldT 0 11 10 mNewT true = (mNewT, 11, mNewT)) ∧
      ((10 : ℚ) ≤ 11 - 0 → true = false →
        temporisation_fusion mOldT 0 11 10 mNewT true combination_dubois_prade =
          (discounting mOldT 1, 0, mOldT)) ∧
      ((10 : ℚ) ≤ 11 - 0 → true = true →
        temporisation_fusion mOldT 0 11 10 mNewT true combination_dubois_prade =
          (combination_dubois_prade (discounting mOldT 1) mNewT, 11,
            combination_dubois_prade (discounting mOldT 1) mNewT)) :=
  temporisation_amended mOldT mNewT 0 11 10 true combination_dubois_prade (by norm_num)

/-!  C5 — the worked Dempster fixture. -/

/-- C5: on the singletons of the 3-state frame,
`MassFunction((e2,0.5),(e3,0.2),(e5,0.3)).combination_dempster(
MassFunction((e2,0.0),(e3,0.9),(e5,0.1)))` equals
`MassFunction((e3, 0.857143), (e5, 0.142857))` under `MassFunction.__eq__`,
which compares masses rounded to 6 decimals. -/
theorem dempster_fixture_chen :
    mfeq (combination_dempster mC5a mC5b) mC5exp = true := by
  norm_num [mfeq, mfeqHalf, combination_dempster, dempsterPre, combination_smets,
    smetsRaw, mC5a, mC5b, mC5exp, smetsPairs, addAll, addMass, clean, msum, conjE,
    precision, List.flatMap, dget, dmem, popKey, normalise, round6, rhe]

/-!  C4 — Dempster's rule and valid sums. -/

/-- C4 counterexample: two valid, compatible mass functions on the 2-state
frame whose conjunctive combination has conflict strictly below 1
(`K = 0.9999999`), yet whose Dempster combination fails `has_valid_sum`:
the only surviving non-conflict mass (`10^-7`) is below `precision`, so
`clean()` removes it, and `normalise()` is a no-op on the resulting empty
function, whose total mass is 0. -/
theorem dempster_valid_sum_counterexample :
    hasValidValues mC4a = true ∧ hasValidSum mC4a = true ∧
      hasValidValues mC4b = true ∧ hasValidSum mC4b = true ∧
      sameFrame 2 mC4a ∧ sameFrame 2 mC4b ∧
      dget (smetsRaw mC4a mC4b) ⟨2, 0⟩ < 1 ∧
      hasValidSum (combination_dempster mC4a mC4b) = false := by
  norm_num [hasValidValues, hasValidSum, sameFrame, mC4a, mC4b, smetsRaw,
    smetsPairs, addAll, addMass, clean, msum, conjE, precision, List.flatMap,
    dget, popKey, normalise, combination_dempster, dempsterPre, combination_smets]

/-- C4 amended: for valid, compatible mass functions whose conjunctive
combination has conflict below 1 *and* whose Dempster intermediate (after
dropping the empty element and cleaning sub-precision masses) still carries
non-zero total mass, the Dempster combination has a valid sum — `normalise`
then makes the masses sum to exactly 1. -/
theorem dempster_valid_sum_amended (s : ℕ) (m1 m2 : MF)
    (h1v : hasValidValues m1 = true) (h1s : hasValidSum m1 = true)
    (h2v : hasValidValues m2 = true) (h2s : hasValidSum m2 = true)
    (hf1 : sameFrame s m1) (hf2 : sameFrame s m2)
    (hK : dget (smetsRaw m1 m2) ⟨s, 0⟩ < 1)
    (hnz : msum (dempsterPre m1 m2) ≠ 0) :
    hasValidSum (combination_dempster m1 m2) = true := by
  have h1 : msum (combination_dempster m1 m2) = 1 := msum_normalise _ hnz
  rw [hasValidSum, h1]
  norm_num [precision]

/-- Witness for `dempster_valid_sum_amended` on a valid mass function
Dempster-combined with itself. -/
theorem dempster_valid_sum_amended_witness :
    hasValidSum (combination_dempster mW4 mW4) = true :=
  dempster_valid_sum_amended 2 mW4 mW4
    (by norm_num [hasValidValues, mW4])
    (by norm_num [hasValidSum, msum, mW4, precision])
    (by norm_num [hasValidValues, mW4])
    (by norm_num [hasValidSum, msum, mW4, precision])
    (by simp [sameFrame, mW4])
    (by simp [sameFrame, mW4])
    (by norm_num [smetsRaw, smetsPairs, addAll, addMass, mW4, conjE, dget,
      List.flatMap])
    (by norm_num [dempsterPre, combination_smets, smetsRaw, smetsPairs, addAll,
      addMass, clean, msum, conjE, precision, List.flatMap, mW4, popKey])

/-!  C10 — queries on an element incompatible with the focals. -/

/-- C10: on a non-empty mass function, querying an element whose frame size
differs from every focal's returns 0 from `bel` and `betP` (also for the empty
element, which short-circuits first), and from `pl` and `q` when the element
is non-empty, while `pl` and `q` return the total stored mass on the empty
element; none of these code paths can raise. -/
theorem queries_incompatible_element (m : MF) (e : DElem)
    (hne : msum m ≠ 0) (hsz : ∀ p ∈ m, p.1.size ≠ e.size) :
    (e.number ≠ 0 → bel m e = 0 ∧ betP m e = 0 ∧ pl m e = 0 ∧ q m e = 0) ∧
      (e.number = 0 → bel m e = 0 ∧ betP m e = 0 ∧ pl m e = msum m ∧ q m e = msum m) := by
  cases m with
  | nil => simp [msum] at hne
  | cons p0 t =>
    have hs : ¬ e.size = p0.1.size :=
      fun hcon => (hsz p0 (List.mem_cons_self p0 t)) hcon.symm
    constructor
    · intro h0
      refine ⟨?_, ?_, ?_, ?_⟩ <;> simp [bel, betP, pl, q, h0, hne, hs]
    · intro h0
      refine ⟨?_, ?_, ?_, ?_⟩ <;> simp [bel, betP, pl, q, h0, hne, hs]

/-- Witness for `queries_incompatible_element`: a categorical mass function on
the 3-state frame queried with elements of the 2-state frame. -/
theorem queries_incompatible_element_witness :
    (((⟨2, 1⟩ : DElem).number ≠ 0 →
      bel [(⟨3, 1⟩, 1)] ⟨2, 1⟩ = 0 ∧ betP [(⟨3, 1⟩, 1)] ⟨2, 1⟩ = 0 ∧
        pl [(⟨3, 1⟩, 1)] ⟨2, 1⟩ = 0 ∧ q [(⟨3, 1⟩, 1)] ⟨2, 1⟩ = 0) ∧
      ((⟨2, 1⟩ : DElem).number = 0 →
        bel [(⟨3, 1⟩, 1)] ⟨2, 1⟩ = 0 ∧ betP [(⟨3, 1⟩, 1)] ⟨2, 1⟩ = 0 ∧
          pl [(⟨3, 1⟩, 1)] ⟨2, 1⟩ = msum [(⟨3, 1⟩, 1)] ∧
          q [(⟨3, 1⟩, 1)] ⟨2, 1⟩ = msum [(⟨3, 1⟩, 1)])) ∧
      (((⟨2, 0⟩ : DElem).number ≠ 0 →
        bel [(⟨3, 1⟩, 1)] ⟨2, 0⟩ = 0 ∧ betP [(⟨3, 1⟩, 1)] ⟨2, 0⟩ = 0 ∧
          pl [(⟨3, 1⟩, 1)] ⟨2, 0⟩ = 0 ∧ q [(⟨3, 1⟩, 1)] ⟨2, 0⟩ = 0) ∧
        ((⟨2, 0⟩ : DElem).number = 0 →
          bel [(⟨3, 1⟩, 1)] ⟨2, 0⟩ = 0 ∧ betP [(⟨3, 1⟩, 1)] ⟨2, 0⟩ = 0 ∧
            pl [(⟨3, 1⟩, 1)] ⟨2, 0⟩ = msum [(⟨3, 1⟩, 1)] ∧
            q [(⟨3, 1⟩, 1)] ⟨2, 0⟩ = msum [(⟨3, 1⟩, 1)])) :=
  ⟨queries_incompatible_element [(⟨3, 1⟩, 1)] ⟨2, 1⟩ (by norm_num [msum])
      (by simp),
    queries_incompatible_element [(⟨3, 1⟩, 1)] ⟨2, 0⟩ (by norm_num [msum])
      (by simp)⟩

/-!  C8 — the element invariant. -/

/-- Any element the safe constructor returns satisfies the invariant: the
guards of `__init__` enforce a positive size and an encoding in
`[0, 2^size)`. -/
theorem delemInit_ok_inv (sz n : ℤ) (e : DElem)
    (h : delemInit sz n = Except.ok e) : elemInv e := by
  have hp : 0 < 2 ^ sz.toNat := Nat.pos_pow_of_pos _ (by norm_num)
  have hcast : ((2 ^ sz.toNat : ℕ) : ℤ) = (2 : ℤ) ^ sz.toNat := by push_cast; rfl
  unfold delemInit at h
  by_cases h1 : sz ≤ 0
  · rw [if_pos h1] at h; cases h
  rw [if_neg h1] at h
  by_cases h2 : n = 0
  · rw [if_pos h2] at h
    cases h
    exact ⟨by show 0 < sz.toNat; omega, by show (0 : ℕ) < 2 ^ sz.toNat; exact hp⟩
  rw [if_neg h2] at h
  by_cases h3 : n = 2 ^ sz.toNat - 1
  · rw [if_pos h3] at h
    cases h
    have hkey : n = ((2 ^ sz.toNat : ℕ) : ℤ) - 1 := by rw [hcast]; exact h3
    refine ⟨by show 0 < sz.toNat; omega, ?_⟩
    show n.toNat < 2 ^ sz.toNat
    omega
  rw [if_neg h3] at h
  by_cases h4 : ¬ (0 ≤ n ∧ n < 2 ^ sz.toNat)
  · rw [if_pos h4] at h; cases h
  · rw [if_neg h4] at h
    push_neg at h4
    cases h
    have hkey : n < ((2 ^ sz.toNat : ℕ) : ℤ) := by rw [hcast]; exact h4.2
    have hnn : 0 ≤ n := h4.1
    refine ⟨by show 0 < sz.toNat; omega, ?_⟩
    show n.toNat < 2 ^ sz.toNat
    omega

/-- The safe constructor succeeds on a positive size and an in-range encoding,
returning an element of that size. -/
theorem delemInit_ok_of (sz n : ℤ) (h1 : 0 < sz) (h2 : 0 ≤ n)
    (h3 : n < 2 ^ sz.toNat) :
    ∃ e, delemInit sz n = Except.ok e ∧ e.size = sz.toNat := by
  unfold delemInit
  by_cases g1 : sz ≤ 0
  · omega
  rw [if_neg g1]
  by_cases g2 : n = 0
  · rw [if_pos g2]; exact ⟨_, rfl, rfl⟩
  rw [if_neg g2]
  by_cases g3 : n = 2 ^ sz.toNat - 1
  · rw [if_pos g3]; exact ⟨_, rfl, rfl⟩
  rw [if_neg g3]
  have g4 : ¬ ¬ (0 ≤ n ∧ n < 2 ^ sz.toNat) := by
    push_neg
    exact ⟨h2, h3⟩
  rw [if_neg g4]
  exact ⟨_, rfl, rfl⟩

/-- C8: elements produced by the safe constructor satisfy the invariant
`0 <= encoding < 2^frame_size` (with positive frame size), and the safe
operations `opposite`, `conjunction`, `disjunction` and `exclusion`, applied
to compatible elements satisfying the invariant, succeed and produce elements
satisfying the invariant. -/
theorem element_invariant_preserved (a b : DElem) (ha : elemInv a)
    (hb : elemInv b) (hab : a.size = b.size) :
    (∀ (sz n : ℤ) (e : DElem), delemInit sz n = Except.ok e → elemInv e) ∧
      (∃ e, oppositeS a = Except.ok e ∧ elemInv e) ∧
      (∃ e, conjunctionS a b = Except.ok e ∧ elemInv e) ∧
      (∃ e, disjunctionS a b = Except.ok e ∧ elemInv e) ∧
      (∃ e, exclusionS a b = Except.ok e ∧ elemInv e) := by
  obtain ⟨has, han⟩ := ha
  obtain ⟨hbs, hbn⟩ := hb
  have hcast : ∀ k : ℕ, ((2 ^ k : ℕ) : ℤ) = 2 ^ k := by intro k; push_cast; rfl
  have hopp : ∀ c : DElem, elemInv c →
      ∃ e, oppositeS c = Except.ok e ∧ elemInv e := by
    intro c hc
    obtain ⟨hcs, hcn⟩ := hc
    obtain ⟨e, he, _⟩ := delemInit_ok_of (c.size : ℤ) (2 ^ c.size - 1 - (c.number : ℤ))
      (by exact_mod_cast hcs) (by have := hcast c.size; omega)
      (by rw [Int.toNat_natCast]; have := hcast c.size; omega)
    exact ⟨e, he, delemInit_ok_inv _ _ _ he⟩
  refine ⟨fun sz n e he => delemInit_ok_inv sz n e he, hopp a ⟨has, han⟩, ?_, ?_, ?_⟩
  · obtain ⟨e, he, _⟩ := delemInit_ok_of (a.size : ℤ) ((a.number &&& b.number : ℕ) : ℤ)
      (by exact_mod_cast has) (by positivity)
      (by rw [Int.toNat_natCast]
          exact_mod_cast hcast a.size ▸
            (Int.ofNat_lt.mpr (Nat.and_lt_two_pow a.number (hab ▸ hbn))))
    refine ⟨e, ?_, delemInit_ok_inv _ _ _ he⟩
    unfold conjunctionS
    rw [if_pos hab]
    exact he
  · obtain ⟨e, he, _⟩ := delemInit_ok_of (a.size : ℤ) ((a.number ||| b.number : ℕ) : ℤ)
      (by exact_mod_cast has) (by positivity)
      (by rw [Int.toNat_natCast]
          exact_mod_cast hcast a.size ▸
            (Int.ofNat_lt.mpr (Nat.or_lt_two_pow han (hab ▸ hbn))))
    refine ⟨e, ?_, delemInit_ok_inv _ _ _ he⟩
    unfold disjunctionS
    rw [if_pos hab]
    exact he
  · obtain ⟨ob, hob, hobinv⟩ := hopp b ⟨hbs, hbn⟩
    have hobsz : ob.size = b.size := by
      obtain ⟨e2, he2, hsz2⟩ := delemInit_ok_of (b.size : ℤ)
        (2 ^ b.size - 1 - (b.number : ℤ)) (by exact_mod_cast hbs)
        (by have := hcast b.size; omega)
        (by rw [Int.toNat_natCast]; have := hcast b.size; omega)
      rw [oppositeS] at hob
      rw [hob] at he2
      cases he2
      simpa using hsz2
    obtain ⟨hobs, hobn⟩ := hobinv
    obtain ⟨e, he, _⟩ := delemInit_ok_of (a.size : ℤ) ((a.number &&& ob.number : ℕ) : ℤ)
      (by exact_mod_cast has) (by positivity)
      (by rw [Int.toNat_natCast]
          have hlt : a.number &&& ob.number < 2 ^ a.size := by
            apply Nat.and_lt_two_pow
            rw [hab, ← hobsz]
            exact hobn
          exact_mod_cast hcast a.size ▸ (Int.ofNat_lt.mpr hlt))
    refine ⟨e, ?_, delemInit_ok_inv _ _ _ he⟩
    have hsz : a.size = ob.size := by rw [hab, hobsz]
    unfold exclusionS
    rw [hob]
    show conjunctionS a ob = Except.ok e
    unfold conjunctionS
    rw [if_pos hsz]
    exact he

/-- Witness for `element_invariant_preserved` at the compatible elements
`(2, 1)` and `(2, 3)`. -/
theorem element_invariant_preserved_witness :
    (∀ (sz n : ℤ) (e : DElem), delemInit sz n = Except.ok e → elemInv e) ∧
      (∃ e, oppositeS ⟨2, 1⟩ = Except.ok e ∧ elemInv e) ∧
      (∃ e, conjunctionS ⟨2, 1⟩ ⟨2, 3⟩ = Except.ok e ∧ elemInv e) ∧
      (∃ e, disjunctionS ⟨2, 1⟩ ⟨2, 3⟩ = Except.ok e ∧ elemInv e) ∧
      (∃ e, exclusionS ⟨2, 1⟩ ⟨2, 3⟩ = Except.ok e ∧ elemInv e) :=
  element_invariant_preserved ⟨2, 1⟩ ⟨2, 3⟩ (by constructor <;> norm_num)
    (by constructor <;> norm_num) rfl


/-!  Association-list lemmas for the cleaned cross-product combinations. -/

theorem dget_addMass : ∀ (m : MF) (k : DElem) (v : ℚ) (e : DElem),
    dget (addMass m k v) e = dget m e + if k = e then v else 0
  | [], k, v, e => by by_cases h : k = e <;> simp [addMass, dget, h]
  | (pk, pv) :: t, k, v, e => by
    by_cases h : pk = k
    · subst h
      by_cases he : pk = e <;> simp [addMass, dget, he]
    · by_cases he : pk = e
      · subst he
        have hk : ¬ k = pk := fun hh => h hh.symm
        simp [addMass, dget, h, hk]
      · simp [addMass, dget, h, he, dget_addMass t k v e]

theorem dmem_addMass : ∀ (m : MF) (k : DElem) (v : ℚ) (e : DElem),
    dmem (addMass m k v) e = (dmem m e || decide (k = e))
  | [], k, v, e => by by_cases h : k = e <;> simp [addMass, dmem, h]
  | (pk, pv) :: t, k, v, e => by
    by_cases h : pk = k
    · subst h
      by_cases he : pk = e <;> simp [addMass, dmem, he]
    · by_cases he : pk = e
      · subst he
        have hk : ¬ k = pk := fun hh => h hh.symm
        simp [addMass, dmem, h, hk]
      · simp [addMass, dmem, h, he, dmem_addMass t k v e]

theorem sumAt_cons (p : DElem × ℚ) (l : List (DElem × ℚ)) (e : DElem) :
    sumAt (p :: l) e = (if p.1 = e then p.2 else 0) + sumAt l e := by
  simp [sumAt]

theorem sumAt_append (l1 l2 : List (DElem × ℚ)) (e : DElem) :
    sumAt (l1 ++ l2) e = sumAt l1 e + sumAt l2 e := by
  simp [sumAt]

theorem addAll_cons (m : MF) (p : DElem × ℚ) (l : List (DElem × ℚ)) :
    addAll m (p :: l) = addAll (addMass m p.1 p.2) l := rfl

theorem dget_addAll : ∀ (l : List (DElem × ℚ)) (m : MF) (e : DElem),
    dget (addAll m l) e = dget m e + sumAt l e
  | [], m, e => by simp [addAll, sumAt]
  | p :: t, m, e => by
    rw [addAll_cons, dget_addAll t, dget_addMass, sumAt_cons]
    ring

theorem dmem_addAll : ∀ (l : List (DElem × ℚ)) (m : MF) (e : DElem),
    dmem (addAll m l) e = (dmem m e || l.any (fun p => decide (p.1 = e)))
  | [], m, e => by simp [addAll]
  | p :: t, m, e => by
    rw [addAll_cons, dmem_addAll t, dmem_addMass]
    simp [Bool.or_assoc]

theorem mem_keys_addMass : ∀ (m : MF) (k : DElem) (v : ℚ) (x : DElem),
    x ∈ (addMass m k v).map Prod.fst → x ∈ m.map Prod.fst ∨ x = k
  | [], k, v, x => by simp [addMass]
  | (pk, pv) :: t, k, v, x => by
    by_cases h : pk = k
    · subst h
      simp [addMass]
      tauto
    · simp only [addMass, if_neg h, List.map_cons, List.mem_cons]
      rintro (rfl | hx)
      · exact Or.inl (Or.inl rfl)
      · rcases mem_keys_addMass t k v x hx with h1 | h2
        · exact Or.inl (Or.inr h1)
        · exact Or.inr h2

theorem keysND_nil : keysND ([] : MF) := by simp [keysND]

theorem keysND_addMass : ∀ (m : MF) (k : DElem) (v : ℚ),
    keysND m → keysND (addMass m k v)
  | [], k, v, _ => by simp [addMass, keysND]
  | (pk, pv) :: t, k, v, h => by
    have hcons : (pk :: t.map Prod.fst).Nodup := h
    obtain ⟨hnotin, hnd⟩ := List.nodup_cons.mp hcons
    by_cases hh : pk = k
    · subst hh
      have : keysND ((pk, pv + v) :: t) := List.nodup_cons.mpr ⟨hnotin, hnd⟩
      simpa [addMass, keysND] using this
    · have h2 := keysND_addMass t k v hnd
      have h3 : pk ∉ (addMass t k v).map Prod.fst := by
        intro hx
        rcases mem_keys_addMass t k v pk hx with h4 | h5
        · exact hnotin h4
        · exact hh h5
      simp only [addMass, if_neg hh, keysND, List.map_cons, List.nodup_cons]
      exact ⟨h3, h2⟩

theorem keysND_addAll : ∀ (l : List (DElem × ℚ)) (m : MF),
    keysND m → keysND (addAll m l)
  | [], _, h => h
  | p :: t, m, h => keysND_addAll t _ (keysND_addMass m p.1 p.2 h)

theorem keysND_clean (m : MF) (h : keysND m) : keysND (clean m) := by
  have hsub : ((clean m).map Prod.fst).Sublist (m.map Prod.fst) :=
    (List.filter_sublist m).map Prod.fst
  exact List.Nodup.sublist hsub h

theorem dmem_false_dget : ∀ (m : MF) (e : DElem), dmem m e = false → dget m e = 0
  | [], _, _ => rfl
  | (pk, pv) :: t, e, h => by
    by_cases hh : pk = e
    · simp [dmem, hh] at h
    · simp only [dget, if_neg hh]
      exact dmem_false_dget t e (by simpa [dmem, hh] using h)

theorem dmem_iff_mem_keys : ∀ (m : MF) (e : DElem),
    dmem m e = true ↔ e ∈ m.map Prod.fst
  | [], e => by simp [dmem]
  | (pk, pv) :: t, e => by
    by_cases h : pk = e
    · simp [dmem, h]
    · have hs : ¬ e = pk := fun hh => h hh.symm
      simp [dmem, h, hs, dmem_iff_mem_keys t e]

theorem dget_of_mem : ∀ (m : MF) (p : DElem × ℚ), keysND m → p ∈ m → dget m p.1 = p.2
  | [], p, _, hp => by simp at hp
  | (pk, pv) :: t, p, hnd, hp => by
    have hcons : (pk :: t.map Prod.fst).Nodup := hnd
    obtain ⟨hnotin, hnd2⟩ := List.nodup_cons.mp hcons
    rcases List.mem_cons.mp hp with rfl | hp2
    · simp [dget]
    · have hne : ¬ pk = p.1 :=
        fun hh => hnotin (hh ▸ List.mem_map_of_mem Prod.fst hp2)
      simp only [dget, if_neg hne]
      exact dget_of_mem t p hnd2 hp2

theorem dmem_of_mem : ∀ (m : MF) (p : DElem × ℚ), p ∈ m → dmem m p.1 = true
  | [], p, hp => by simp at hp
  | (pk, pv) :: t, p, hp => by
    rcases List.mem_cons.mp hp with rfl | hp2
    · simp [dmem]
    · by_cases h : pk = p.1 <;> simp [dmem, h, dmem_of_mem t p hp2]

theorem mem_clean_iff (m : MF) (p : DElem × ℚ) :
    p ∈ clean m ↔ (p ∈ m ∧ precision ≤ p.2) := by
  simp [clean, List.mem_filter]

theorem dmem_clean (m : MF) (hnd : keysND m) (e : DElem) :
    dmem (clean m) e = true ↔ (dmem m e = true ∧ precision ≤ dget m e) := by
  rw [dmem_iff_mem_keys, dmem_iff_mem_keys]
  constructor
  · intro hx
    obtain ⟨p, hp, rfl⟩ := List.mem_map.mp hx
    obtain ⟨hpm, hpv⟩ := (mem_clean_iff m p).mp hp
    refine ⟨List.mem_map_of_mem _ hpm, ?_⟩
    rw [dget_of_mem m p hnd hpm]
    exact hpv
  · rintro ⟨hmem, hge⟩
    obtain ⟨p, hp, rfl⟩ := List.mem_map.mp hmem
    refine List.mem_map_of_mem _ ?_
    rw [mem_clean_iff]
    refine ⟨hp, ?_⟩
    rw [← dget_of_mem m p hnd hp]
    exact hge

theorem dget_clean (m : MF) (hnd : keysND m) (e : DElem) :
    dget (clean m) e = if precision ≤ dget m e then dget m e else 0 := by
  by_cases hm : dmem (clean m) e = true
  · have h2 := (dmem_clean m hnd e).mp hm
    obtain ⟨p, hp, rfl⟩ := List.mem_map.mp ((dmem_iff_mem_keys _ _).mp hm)
    rw [dget_of_mem (clean m) p (keysND_clean m hnd) hp]
    have hpm := (mem_clean_iff m p).mp hp
    rw [dget_of_mem m p hnd hpm.1, if_pos hpm.2]
  · have h0 : dget (clean m) e = 0 :=
      dmem_false_dget _ e (Bool.not_eq_true _ ▸ hm)
    rw [h0]
    by_cases hge : precision ≤ dget m e
    · exfalso
      have hpos : (0 : ℚ) < precision := by norm_num [precision]
      have hne : dget m e ≠ 0 := by intro hz; rw [hz] at hge; linarith
      have hmem : dmem m e = true := by
        by_contra hh
        exact hne (dmem_false_dget m e (Bool.not_eq_true _ ▸ hh))
      exact hm ((dmem_clean m hnd e).mpr ⟨hmem, hge⟩)
    · rw [if_neg hge]

theorem dget_clean_addAll (l : List (DElem × ℚ)) (e : DElem) :
    dget (clean (addAll [] l)) e = if precision ≤ sumAt l e then sumAt l e else 0 := by
  have hnd := keysND_addAll l [] keysND_nil
  rw [dget_clean _ hnd]
  have hg : dget (addAll [] l) e = sumAt l e := by
    rw [dget_addAll]
    simp [dget]
  rw [hg]

theorem sumAt_ne_zero_any (l : List (DElem × ℚ)) (e : DElem) (h : sumAt l e ≠ 0) :
    l.any (fun p => decide (p.1 = e)) = true := by
  induction l with
  | nil => simp [sumAt] at h
  | cons p t ih =>
    rw [sumAt_cons] at h
    by_cases hp : p.1 = e
    · simp [List.any_cons, hp]
    · rw [if_neg hp, zero_add] at h
      simp [List.any_cons, ih h]

theorem dmem_clean_addAll (l : List (DElem × ℚ)) (e : DElem) :
    dmem (clean (addAll [] l)) e = true ↔ precision ≤ sumAt l e := by
  have hnd := keysND_addAll l [] keysND_nil
  rw [dmem_clean _ hnd e]
  have hg : dget (addAll [] l) e = sumAt l e := by
    rw [dget_addAll]
    simp [dget]
  rw [hg]
  constructor
  · exact And.right
  · intro hge
    refine ⟨?_, hge⟩
    rw [dmem_addAll]
    have hnz : sumAt l e ≠ 0 := by
      have hpos : (0 : ℚ) < precision := by norm_num [precision]
      intro h0
      rw [h0] at hge
      linarith
    simp [sumAt_ne_zero_any l e hnz]

theorem bool_eq_of_true_iff (a b : Bool) (h : (a = true) ↔ (b = true)) : a = b := by
  cases a <;> cases b <;> simp_all

theorem sum_map_add_distrib {α : Type} (l : List α) (f g : α → ℚ) :
    (l.map (fun x => f x + g x)).sum = (l.map f).sum + (l.map g).sum := by
  induction l with
  | nil => simp
  | cons a t ih =>
    simp only [List.map_cons, List.sum_cons, ih]
    ring

theorem sum_sum_comm {α β : Type} (l1 : List α) (l2 : List β) (f : α → β → ℚ) :
    (l1.map (fun a => (l2.map (fun b => f a b)).sum)).sum =
      (l2.map (fun b => (l1.map (fun a => f a b)).sum)).sum := by
  induction l1 with
  | nil =>
    have hz : ∀ l : List β, (l.map (fun _ => (0 : ℚ))).sum = 0 := by
      intro l
      induction l <;> simp [*]
    simpa using (hz l2).symm
  | cons a t ih =>
    simp only [List.map_cons, List.sum_cons, ih, ← sum_map_add_distrib]

theorem sumAt_genPairs (op : DElem → DElem → DElem) (m1 m2 : MF) (e : DElem) :
    sumAt (genPairs op m1 m2) e =
      (m1.map (fun p1 =>
        (m2.map (fun p2 => if op p1.1 p2.1 = e then p1.2 * p2.2 else 0)).sum)).sum := by
  induction m1 with
  | nil => simp [genPairs, sumAt]
  | cons p t ih =>
    have h1 : sumAt (m2.map (fun p2 => (op p.1 p2.1, p.2 * p2.2))) e =
        (m2.map (fun p2 => if op p.1 p2.1 = e then p.2 * p2.2 else 0)).sum := by
      simp only [sumAt, List.map_map]
      exact congrArg List.sum (List.map_congr_left fun x hx => rfl)
    have h2 : genPairs op (p :: t) m2 =
        m2.map (fun p2 => (op p.1 p2.1, p.2 * p2.2)) ++ genPairs op t m2 := by
      simp [genPairs]
    rw [h2, sumAt_append, h1, ih]
    simp

theorem sumAt_genPairs_comm (op : DElem → DElem → DElem) (s : ℕ) (m1 m2 : MF)
    (hf1 : sameFrame s m1) (hf2 : sameFrame s m2)
    (hop : ∀ a b : DElem, a.size = s → b.size = s → op a b = op b a) (e : DElem) :
    sumAt (genPairs op m1 m2) e = sumAt (genPairs op m2 m1) e := by
  rw [sumAt_genPairs, sumAt_genPairs, sum_sum_comm]
  refine congrArg List.sum (List.map_congr_left ?_)
  intro p2 hp2
  refine congrArg List.sum (List.map_congr_left ?_)
  intro p1 hp1
  rw [hop p1.1 p2.1 (hf1 p1 hp1) (hf2 p2 hp2), mul_comm]

theorem mfeq_of_pointwise (A B : MF) (hA : keysND A) (hB : keysND B)
    (hg : ∀ e, dget A e = dget B e) (hm : ∀ e, dmem A e = dmem B e) :
    mfeq A B = true := by
  unfold mfeq mfeqHalf
  rw [Bool.and_eq_true, List.all_eq_true, List.all_eq_true]
  constructor
  · intro p hp
    rw [Bool.and_eq_true, Bool.or_eq_true]
    refine ⟨Or.inl ?_, ?_⟩
    · rw [← hm p.1]
      exact dmem_of_mem A p hp
    · rw [decide_eq_true_eq, ← hg p.1, dget_of_mem A p hA hp]
  · intro p hp
    rw [Bool.and_eq_true, Bool.or_eq_true]
    refine ⟨Or.inl ?_, ?_⟩
    · rw [hm p.1]
      exact dmem_of_mem B p hp
    · rw [decide_eq_true_eq, hg p.1, dget_of_mem B p hB hp]

theorem clean_addAll_comm_mfeq (l1 l2 : List (DElem × ℚ))
    (hg : ∀ e, sumAt l1 e = sumAt l2 e) :
    mfeq (clean (addAll [] l1)) (clean (addAll [] l2)) = true := by
  apply mfeq_of_pointwise
  · exact keysND_clean _ (keysND_addAll _ _ keysND_nil)
  · exact keysND_clean _ (keysND_addAll _ _ keysND_nil)
  · intro e
    rw [dget_clean_addAll, dget_clean_addAll, hg e]
  · intro e
    refine bool_eq_of_true_iff _ _ ?_
    rw [dmem_clean_addAll, dmem_clean_addAll, hg e]

theorem conjE_comm_of (s : ℕ) (a b : DElem) (ha : a.size = s) (hb : b.size = s) :
    conjE a b = conjE b a := by
  simp only [conjE, DElem.mk.injEq]
  exact ⟨ha.trans hb.symm, Nat.land_comm _ _⟩

theorem disjE_comm_of (s : ℕ) (a b : DElem) (ha : a.size = s) (hb : b.size = s) :
    disjE a b = disjE b a := by
  simp only [disjE, DElem.mk.injEq]
  exact ⟨ha.trans hb.symm, Nat.lor_comm _ _⟩

/-!  C6 — commutativity and associativity of Smets and disjunctive rules. -/

/-- C6 amended: binary Smets and binary disjunctive combination are both
commutative under `MassFunction.__eq__` for mutually compatible, non-empty
mass functions.  (Associativity, the other half of the original claim, fails:
see the counterexample, where `clean()` drops a sub-precision intermediate
mass under one association order only.) -/
theorem smets_disjunctive_commutative (s : ℕ) (m1 m2 : MF)
    (hf1 : sameFrame s m1) (hf2 : sameFrame s m2)
    (h1 : msum m1 ≠ 0) (h2 : msum m2 ≠ 0) :
    mfeq (combination_smets m1 m2) (combination_smets m2 m1) = true ∧
      mfeq (combination_disjunctive m1 m2) (combination_disjunctive m2 m1) = true := by
  constructor
  · show mfeq (clean (addAll [] (genPairs conjE m1 m2)))
      (clean (addAll [] (genPairs conjE m2 m1))) = true
    exact clean_addAll_comm_mfeq _ _
      (sumAt_genPairs_comm conjE s m1 m2 hf1 hf2 (conjE_comm_of s))
  · show mfeq (clean (addAll [] (genPairs disjE m1 m2)))
      (clean (addAll [] (genPairs disjE m2 m1))) = true
    exact clean_addAll_comm_mfeq _ _
      (sumAt_genPairs_comm disjE s m1 m2 hf1 hf2 (disjE_comm_of s))

/-- Witness for `smets_disjunctive_commutative` on the worked fixture mass
functions. -/
theorem smets_disjunctive_commutative_witness :
    mfeq (combination_smets mC5a mC5b) (combination_smets mC5b mC5a) = true ∧
      mfeq (combination_disjunctive mC5a mC5b) (combination_disjunctive mC5b mC5a) = true :=
  smets_disjunctive_commutative 3 mC5a mC5b
    (by simp [sameFrame, mC5a])
    (by simp [sameFrame, mC5b])
    (by norm_num [msum, mC5a])
    (by norm_num [msum, mC5b])

/-- C6 counterexample: neither binary Smets nor binary disjunctive combination
is associative.  In each triple, a mass of `5*10^-7` is cleaned away in the
left association but survives (doubled to `10^-6`, exactly `precision`) in
the right association, and `__eq__` distinguishes the results. -/
theorem smets_disjunctive_not_associative :
    sameFrame 2 nS1 ∧ sameFrame 2 nS2 ∧ sameFrame 2 nS3 ∧
      msum nS1 ≠ 0 ∧ msum nS2 ≠ 0 ∧ msum nS3 ≠ 0 ∧
      mfeq (combination_smets (combination_smets nS1 nS2) nS3)
        (combination_smets nS1 (combination_smets nS2 nS3)) = false ∧
      sameFrame 2 nD1 ∧ sameFrame 2 nD2 ∧ sameFrame 2 nD3 ∧
      msum nD1 ≠ 0 ∧ msum nD2 ≠ 0 ∧ msum nD3 ≠ 0 ∧
      mfeq (combination_disjunctive (combination_disjunctive nD1 nD2) nD3)
        (combination_disjunctive nD1 (combination_disjunctive nD2 nD3)) = false := by
  refine ⟨by simp [sameFrame, nS1], by simp [sameFrame, nS2], by simp [sameFrame, nS3],
    by norm_num [msum, nS1], by norm_num [msum, nS2], by norm_num [msum, nS3], ?_,
    by simp [sameFrame, nD1], by simp [sameFrame, nD2], by simp [sameFrame, nD3],
    by norm_num [msum, nD1], by norm_num [msum, nD2], by norm_num [msum, nD3], ?_⟩
  · norm_num [mfeq, mfeqHalf, combination_smets, smetsRaw, smetsPairs, addAll,
      addMass, clean, conjE, precision, List.flatMap, dget, dmem, round6, rhe,
      nS1, nS2, nS3]
  · norm_num [mfeq, mfeqHalf, combination_disjunctive, disjPairs, addAll,
      addMass, clean, disjE, precision, List.flatMap, dget, dmem, round6, rhe,
      nD1, nD2, nD3, show (1 : ℕ) ||| 2 = 3 by decide,
      show (2 : ℕ) ||| 2 = 2 by decide, show (3 : ℕ) ||| 2 = 3 by decide]


/-!  C7 — the extrema search. -/

/-- The characterisation of the `get_min` accumulation loop: starting from a
state satisfying the invariant, the final list contains exactly the pairs
`(e, crit e)` for qualifying candidates attaining the minimum criterion value
over all qualifying candidates. -/
theorem getMinLoop_char (crit : DElem → ℚ) (mc : ℤ) :
    ∀ (rest processed : List DElem) (minima : List (DElem × ℚ)) (cur : ℚ),
    MinInv crit mc processed minima cur →
    ∀ pr : DElem × ℚ, pr ∈ getMinLoop crit mc rest minima cur ↔
      (pr.1 ∈ processed ++ rest ∧ qualifies mc pr.1 ∧ pr.2 = crit pr.1 ∧
        ∀ e ∈ processed ++ rest, qualifies mc e → crit pr.1 ≤ crit e) := by
  intro rest
  induction rest with
  | nil =>
    intro processed minima cur hinv pr
    rcases hinv with ⟨rfl, hnone⟩ | ⟨⟨e0, he0, hq0, hc0⟩, hmin, hiff⟩
    · simp only [getMinLoop, List.append_nil, List.not_mem_nil, false_iff]
      rintro ⟨hp1, hp2, _, _⟩
      exact (hnone pr.1 hp1) hp2
    · simp only [getMinLoop, List.append_nil]
      rw [hiff pr]
      constructor
      · rintro ⟨h1, h2, h3, h4⟩
        exact ⟨h1, h2, h4.trans h3.symm, fun e he hq => h3 ▸ hmin e he hq⟩
      · rintro ⟨h1, h2, h3, h4⟩
        have hle : crit pr.1 ≤ cur := hc0 ▸ h4 e0 he0 hq0
        have hge : cur ≤ crit pr.1 := hmin pr.1 h1 h2
        have : crit pr.1 = cur := le_antisymm hle hge
        exact ⟨h1, h2, this, h3.trans this⟩
  | cons e rest2 ih =>
    intro processed minima cur hinv pr
    have hassoc : processed ++ e :: rest2 = (processed ++ [e]) ++ rest2 := by simp
    rw [hassoc]
    by_cases hQ : qualifies mc e
    · rcases hinv with ⟨rfl, hnone⟩ | ⟨⟨e0, he0, hq0, hc0⟩, hmin, hiff⟩
      · -- minima empty so far
        rw [show getMinLoop crit mc (e :: rest2) [] cur =
          getMinLoop crit mc rest2 [(e, crit e)] (crit e) by
            simp [getMinLoop, hQ]]
        apply ih
        refine Or.inr ⟨⟨e, by simp, hQ, rfl⟩, ?_, ?_⟩
        · intro x hx hqx
          rcases List.mem_append.mp hx with hx1 | hx2
          · exact absurd hqx (hnone x hx1)
          · rw [List.mem_singleton.mp hx2]
        · intro q
          simp only [List.mem_singleton]
          constructor
          · rintro rfl
            exact ⟨by simp, hQ, rfl, rfl⟩
          · rintro ⟨h1, h2, h3, h4⟩
            rcases List.mem_append.mp h1 with hx1 | hx2
            · exact absurd h2 (hnone q.1 hx1)
            · have : q.1 = e := List.mem_singleton.mp hx2
              calc q = (q.1, q.2) := rfl
                _ = (e, crit e) := by rw [this, h4]
      · -- minima nonempty
        have hne : minima ≠ [] := by
          intro hcon
          have := (hiff (e0, cur)).mpr ⟨he0, hq0, hc0, rfl⟩
          rw [hcon] at this
          exact List.not_mem_nil _ this
        by_cases heq : crit e = cur
        · rw [show getMinLoop crit mc (e :: rest2) minima cur =
            getMinLoop crit mc rest2 (minima ++ [(e, cur)]) cur by
              simp [getMinLoop, hQ, hne, heq]]
          apply ih
          refine Or.inr ⟨⟨e0, by simp [he0], hq0, hc0⟩, ?_, ?_⟩
          · intro x hx hqx
            rcases List.mem_append.mp hx with hx1 | hx2
            · exact hmin x hx1 hqx
            · rw [List.mem_singleton.mp hx2, heq]
          · intro q
            rw [List.mem_append, hiff q, List.mem_singleton]
            constructor
            · rintro (⟨h1, h2, h3, h4⟩ | rfl)
              · exact ⟨by simp [h1], h2, h3, h4⟩
              · exact ⟨by simp, hQ, heq, rfl⟩
            · rintro ⟨h1, h2, h3, h4⟩
              rcases List.mem_append.mp h1 with hx1 | hx2
              · exact Or.inl ⟨hx1, h2, h3, h4⟩
              · refine Or.inr ?_
                have hq1 : q.1 = e := List.mem_singleton.mp hx2
                calc q = (q.1, q.2) := rfl
                  _ = (e, cur) := by rw [hq1, h4]
        · by_cases hlt : crit e < cur
          · rw [show getMinLoop crit mc (e :: rest2) minima cur =
              getMinLoop crit mc rest2 [(e, crit e)] (crit e) by
                simp [getMinLoop, hQ, hne, heq, hlt]]
            apply ih
            refine Or.inr ⟨⟨e, by simp, hQ, rfl⟩, ?_, ?_⟩
            · intro x hx hqx
              rcases List.mem_append.mp hx with hx1 | hx2
              · exact le_of_lt (lt_of_lt_of_le hlt (hmin x hx1 hqx))
              · rw [List.mem_singleton.mp hx2]
            · intro q
              simp only [List.mem_singleton]
              constructor
              · rintro rfl
                exact ⟨by simp, hQ, rfl, rfl⟩
              · rintro ⟨h1, h2, h3, h4⟩
                rcases List.mem_append.mp h1 with hx1 | hx2
                · exfalso
                  have := hmin q.1 hx1 h2
                  rw [h3] at this
                  exact absurd (lt_of_lt_of_le hlt this) (lt_irrefl _)
                · have hq1 : q.1 = e := List.mem_singleton.mp hx2
                  calc q = (q.1, q.2) := rfl
                    _ = (e, crit e) := by rw [hq1, h4]
          · have hgt : cur < crit e := lt_of_le_of_ne (le_of_not_lt hlt) (fun hh => heq hh.symm)
            rw [show getMinLoop crit mc (e :: rest2) minima cur =
              getMinLoop crit mc rest2 minima cur by
                simp [getMinLoop, hQ, hne, heq, hlt]]
            apply ih
            refine Or.inr ⟨⟨e0, by simp [he0], hq0, hc0⟩, ?_, ?_⟩
            · intro x hx hqx
              rcases List.mem_append.mp hx with hx1 | hx2
              · exact hmin x hx1 hqx
              · rw [List.mem_singleton.mp hx2]
                exact le_of_lt hgt
            · intro q
              rw [hiff q]
              constructor
              · rintro ⟨h1, h2, h3, h4⟩
                exact ⟨by simp [h1], h2, h3, h4⟩
              · rintro ⟨h1, h2, h3, h4⟩
                rcases List.mem_append.mp h1 with hx1 | hx2
                · exact ⟨hx1, h2, h3, h4⟩
                · exfalso
                  rw [List.mem_singleton.mp hx2] at h3
                  rw [h3] at hgt
                  exact lt_irrefl _ hgt
    · rw [show getMinLoop crit mc (e :: rest2) minima cur =
        getMinLoop crit mc rest2 minima cur by simp [getMinLoop, hQ]]
      apply ih
      rcases hinv with ⟨rfl, hnone⟩ | ⟨⟨e0, he0, hq0, hc0⟩, hmin, hiff⟩
      · refine Or.inl ⟨rfl, ?_⟩
        intro x hx
        rcases List.mem_append.mp hx with hx1 | hx2
        · exact hnone x hx1
        · rw [List.mem_singleton.mp hx2]
          exact hQ
      · refine Or.inr ⟨⟨e0, by simp [he0], hq0, hc0⟩, ?_, ?_⟩
        · intro x hx hqx
          rcases List.mem_append.mp hx with hx1 | hx2
          · exact hmin x hx1 hqx
          · exact absurd hqx (by rw [List.mem_singleton.mp hx2]; exact hQ)
        · intro q
          rw [hiff q]
          constructor
          · rintro ⟨h1, h2, h3, h4⟩
            exact ⟨by simp [h1], h2, h3, h4⟩
          · rintro ⟨h1, h2, h3, h4⟩
            rcases List.mem_append.mp h1 with hx1 | hx2
            · exact ⟨hx1, h2, h3, h4⟩
            · exact absurd h2 (by rw [List.mem_singleton.mp hx2]; exact hQ)

/-- The mirrored characterisation of the `get_max` accumulation loop. -/
theorem getMaxLoop_char (crit : DElem → ℚ) (mc : ℤ) :
    ∀ (rest processed : List DElem) (maxima : List (DElem × ℚ)) (cur : ℚ),
    MaxInv crit mc processed maxima cur →
    ∀ pr : DElem × ℚ, pr ∈ getMaxLoop crit mc rest maxima cur ↔
      (pr.1 ∈ processed ++ rest ∧ qualifies mc pr.1 ∧ pr.2 = crit pr.1 ∧
        ∀ e ∈ processed ++ rest, qualifies mc e → crit e ≤ crit pr.1) := by
  intro rest
  induction rest with
  | nil =>
    intro processed maxima cur hinv pr
    rcases hinv with ⟨rfl, hnone⟩ | ⟨⟨e0, he0, hq0, hc0⟩, hmax, hiff⟩
    · simp only [getMaxLoop, List.append_nil, List.not_mem_nil, false_iff]
      rintro ⟨hp1, hp2, _, _⟩
      exact (hnone pr.1 hp1) hp2
    · simp only [getMaxLoop, List.append_nil]
      rw [hiff pr]
      constructor
      · rintro ⟨h1, h2, h3, h4⟩
        exact ⟨h1, h2, h4.trans h3.symm, fun e he hq => h3 ▸ hmax e he hq⟩
      · rintro ⟨h1, h2, h3, h4⟩
        have hge : cur ≤ crit pr.1 := hc0 ▸ h4 e0 he0 hq0
        have hle : crit pr.1 ≤ cur := hmax pr.1 h1 h2
        have hceq : crit pr.1 = cur := le_antisymm hle hge
        exact ⟨h1, h2, hceq, h3.trans hceq⟩
  | cons e rest2 ih =>
    intro processed maxima cur hinv pr
    have hassoc : processed ++ e :: rest2 = (processed ++ [e]) ++ rest2 := by simp
    rw [hassoc]
    by_cases hQ : qualifies mc e
    · rcases hinv with ⟨rfl, hnone⟩ | ⟨⟨e0, he0, hq0, hc0⟩, hmax, hiff⟩
      · rw [show getMaxLoop crit mc (e :: rest2) [] cur =
          getMaxLoop crit mc rest2 [(e, crit e)] (crit e) by
            simp [getMaxLoop, hQ]]
        apply ih
        refine Or.inr ⟨⟨e, by simp, hQ, rfl⟩, ?_, ?_⟩
        · intro x hx hqx
          rcases List.mem_append.mp hx with hx1 | hx2
          · exact absurd hqx (hnone x hx1)
          · rw [List.mem_singleton.mp hx2]
        · intro pq
          simp only [List.mem_singleton]
          constructor
          · rintro rfl
            exact ⟨by simp, hQ, rfl, rfl⟩
          · rintro ⟨h1, h2, h3, h4⟩
            rcases List.mem_append.mp h1 with hx1 | hx2
            · exact absurd h2 (hnone pq.1 hx1)
            · have hq1 : pq.1 = e := List.mem_singleton.mp hx2
              calc pq = (pq.1, pq.2) := rfl
                _ = (e, crit e) := by rw [hq1, h4]
      · have hne : maxima ≠ [] := by
          intro hcon
          have := (hiff (e0, cur)).mpr ⟨he0, hq0, hc0, rfl⟩
          rw [hcon] at this
          exact List.not_mem_nil _ this
        by_cases heq : crit e = cur
        · rw [show getMaxLoop crit mc (e :: rest2) maxima cur =
            getMaxLoop crit mc rest2 (maxima ++ [(e, cur)]) cur by
              simp [getMaxLoop, hQ, hne, heq]]
          apply ih
          refine Or.inr ⟨⟨e0, by simp [he0], hq0, hc0⟩, ?_, ?_⟩
          · intro x hx hqx
            rcases List.mem_append.mp hx with hx1 | hx2
            · exact hmax x hx1 hqx
            · rw [List.mem_singleton.mp hx2, heq]
          · intro pq
            rw [List.mem_append, hiff pq, List.mem_singleton]
            constructor
            · rintro (⟨h1, h2, h3, h4⟩ | rfl)
              · exact ⟨by simp [h1], h2, h3, h4⟩
              · exact ⟨by simp, hQ, heq, rfl⟩
            · rintro ⟨h1, h2, h3, h4⟩
              rcases List.mem_append.mp h1 with hx1 | hx2
              · exact Or.inl ⟨hx1, h2, h3, h4⟩
              · refine Or.inr ?_
                have hq1 : pq.1 = e := List.mem_singleton.mp hx2
                calc pq = (pq.1, pq.2) := rfl
                  _ = (e, cur) := by rw [hq1, h4]
        · by_cases hlt : cur < crit e
          · rw [show getMaxLoop crit mc (e :: rest2) maxima cur =
              getMaxLoop crit mc rest2 [(e, crit e)] (crit e) by
                simp [getMaxLoop, hQ, hne, heq, hlt]]
            apply ih
            refine Or.inr ⟨⟨e, by simp, hQ, rfl⟩, ?_, ?_⟩
            · intro x hx hqx
              rcases List.mem_append.mp hx with hx1 | hx2
              · exact le_of_lt (lt_of_le_of_lt (hmax x hx1 hqx) hlt)
              · rw [List.mem_singleton.mp hx2]
            · intro pq
              simp only [List.mem_singleton]
              constructor
              · rintro rfl
                exact ⟨by simp, hQ, rfl, rfl⟩
              · rintro ⟨h1, h2, h3, h4⟩
                rcases List.mem_append.mp h1 with hx1 | hx2
                · exfalso
                  have hxx := hmax pq.1 hx1 h2
                  rw [h3] at hxx
                  exact absurd (lt_of_le_of_lt hxx hlt) (lt_irrefl _)
                · have hq1 : pq.1 = e := List.mem_singleton.mp hx2
                  calc pq = (pq.1, pq.2) := rfl
                    _ = (e, crit e) := by rw [hq1, h4]
          · have hgt : crit e < cur := lt_of_le_of_ne (le_of_not_lt hlt) heq
            rw [show getMaxLoop crit mc (e :: rest2) maxima cur =
              getMaxLoop crit mc rest2 maxima cur by
                simp [getMaxLoop, hQ, hne, heq, hlt]]
            apply ih
            refine Or.inr ⟨⟨e0, by simp [he0], hq0, hc0⟩, ?_, ?_⟩
            · intro x hx hqx
              rcases List.mem_append.mp hx with hx1 | hx2
              · exact hmax x hx1 hqx
              · rw [List.mem_singleton.mp hx2]
                exact le_of_lt hgt
            · intro pq
              rw [hiff pq]
              constructor
              · rintro ⟨h1, h2, h3, h4⟩
                exact ⟨by simp [h1], h2, h3, h4⟩
              · rintro ⟨h1, h2, h3, h4⟩
                rcases List.mem_append.mp h1 with hx1 | hx2
                · exact ⟨hx1, h2, h3, h4⟩
                · exfalso
                  rw [List.mem_singleton.mp hx2] at h3
                  rw [h3] at hgt
                  exact lt_irrefl _ hgt
    · rw [show getMaxLoop crit mc (e :: rest2) maxima cur =
        getMaxLoop crit mc rest2 maxima cur by simp [getMaxLoop, hQ]]
      apply ih
      rcases hinv with ⟨rfl, hnone⟩ | ⟨⟨e0, he0, hq0, hc0⟩, hmax, hiff⟩
      · refine Or.inl ⟨rfl, ?_⟩
        intro x hx
        rcases List.mem_append.mp hx with hx1 | hx2
        · exact hnone x hx1
        · rw [List.mem_singleton.mp hx2]
          exact hQ
      · refine Or.inr ⟨⟨e0, by simp [he0], hq0, hc0⟩, ?_, ?_⟩
        · intro x hx hqx
          rcases List.mem_append.mp hx with hx1 | hx2
          · exact hmax x hx1 hqx
          · exact absurd hqx (by rw [List.mem_singleton.mp hx2]; exact hQ)
        · intro pq
          rw [hiff pq]
          constructor
          · rintro ⟨h1, h2, h3, h4⟩
            exact ⟨by simp [h1], h2, h3, h4⟩
          · rintro ⟨h1, h2, h3, h4⟩
            rcases List.mem_append.mp h1 with hx1 | hx2
            · exact ⟨hx1, h2, h3, h4⟩
            · exact absurd h2 (by rw [List.mem_singleton.mp hx2]; exact hQ)

/-- The cardinal (bit-count loop) is zero exactly on the empty encoding. -/
theorem popcount_eq_zero (n : ℕ) : popcount n = 0 ↔ n = 0 := by
  induction n using Nat.strong_induction_on with
  | _ n ih =>
    by_cases h : n = 0
    · simp [popcount, h]
    · rw [popcount, dif_neg h]
      constructor
      · intro hz
        have h1 : n % 2 = 0 ∧ popcount (n / 2) = 0 := by omega
        have h2 : n / 2 = 0 :=
          (ih (n / 2) (Nat.div_lt_self (Nat.pos_of_ne_zero h) one_lt_two)).mp h1.2
        omega
      · intro hz
        exact absurd hz h

/-- C7: `get_min` and `get_max` fail (raise `ValueError`) exactly when
`max_card <= 0`; otherwise they return exactly the pairs `(element, value)`
for the candidate elements of cardinality in `(0, max_card]` attaining the
minimum (resp. maximum) of the criterion over all such candidates — all ties
included, and the empty element never included. -/
theorem get_min_get_max_spec (crit : DElem → ℚ) (mc : ℤ) (elems : List DElem) :
    ((∃ s, get_min crit mc elems = Except.error s) ↔ mc ≤ 0) ∧
      ((∃ s, get_max crit mc elems = Except.error s) ↔ mc ≤ 0) ∧
      (∀ L, get_min crit mc elems = Except.ok L →
        ∀ pr : DElem × ℚ, pr ∈ L ↔
          (pr.1 ∈ elems ∧ pr.1.number ≠ 0 ∧ qualifies mc pr.1 ∧ pr.2 = crit pr.1 ∧
            ∀ e ∈ elems, qualifies mc e → crit pr.1 ≤ crit e)) ∧
      (∀ L, get_max crit mc elems = Except.ok L →
        ∀ pr : DElem × ℚ, pr ∈ L ↔
          (pr.1 ∈ elems ∧ pr.1.number ≠ 0 ∧ qualifies mc pr.1 ∧ pr.2 = crit pr.1 ∧
            ∀ e ∈ elems, qualifies mc e → crit e ≤ crit pr.1)) := by
  refine ⟨?_, ?_, ?_, ?_⟩
  · unfold get_min
    by_cases h : mc ≤ 0 <;> simp [h]
  · unfold get_max
    by_cases h : mc ≤ 0 <;> simp [h]
  · intro L hL pr
    unfold get_min at hL
    by_cases h : mc ≤ 0
    · rw [if_pos h] at hL
      cases hL
    · rw [if_neg h] at hL
      cases hL
      have hchar := getMinLoop_char crit mc elems [] [] 1000000000
        (Or.inl ⟨rfl, by simp⟩) pr
      rw [hchar]
      simp only [List.nil_append]
      constructor
      · rintro ⟨h1, h2, h3, h4⟩
        refine ⟨h1, ?_, h2, h3, h4⟩
        intro hz
        have hpc : popcount pr.1.number = 0 := (popcount_eq_zero _).mpr hz
        have := h2.1
        omega
      · rintro ⟨h1, _, h2, h3, h4⟩
        exact ⟨h1, h2, h3, h4⟩
  · intro L hL pr
    unfold get_max at hL
    by_cases h : mc ≤ 0
    · rw [if_pos h] at hL
      cases hL
    · rw [if_neg h] at hL
      cases hL
      have hchar := getMaxLoop_char crit mc elems [] [] 0
        (Or.inl ⟨rfl, by simp⟩) pr
      rw [hchar]
      simp only [List.nil_append]
      constructor
      · rintro ⟨h1, h2, h3, h4⟩
        refine ⟨h1, ?_, h2, h3, h4⟩
        intro hz
        have hpc : popcount pr.1.number = 0 := (popcount_eq_zero _).mpr hz
        have := h2.1
        omega
      · rintro ⟨h1, _, h2, h3, h4⟩
        exact ⟨h1, h2, h3, h4⟩

/-- Witness for `get_min_get_max_spec`: the constant criterion over the
candidates `{(2,1), (2,0)}` with cardinality bound 1. -/
theorem get_min_get_max_spec_witness :
    (((⟨2, 1⟩ : DElem), (0 : ℚ)) ∈ getMinLoop critW 1 [⟨2, 1⟩, ⟨2, 0⟩] [] 1000000000 ↔
      ((⟨2, 1⟩ : DElem) ∈ [(⟨2, 1⟩ : DElem), ⟨2, 0⟩] ∧ (⟨2, 1⟩ : DElem).number ≠ 0 ∧
        qualifies 1 ⟨2, 1⟩ ∧ (0 : ℚ) = critW ⟨2, 1⟩ ∧
        ∀ e ∈ [(⟨2, 1⟩ : DElem), ⟨2, 0⟩], qualifies 1 e → critW ⟨2, 1⟩ ≤ critW e)) ∧
      (((⟨2, 1⟩ : DElem), (0 : ℚ)) ∈ getMaxLoop critW 1 [⟨2, 1⟩, ⟨2, 0⟩] [] 0 ↔
        ((⟨2, 1⟩ : DElem) ∈ [(⟨2, 1⟩ : DElem), ⟨2, 0⟩] ∧ (⟨2, 1⟩ : DElem).number ≠ 0 ∧
          qualifies 1 ⟨2, 1⟩ ∧ (0 : ℚ) = critW ⟨2, 1⟩ ∧
          ∀ e ∈ [(⟨2, 1⟩ : DElem), ⟨2, 0⟩], qualifies 1 e → critW e ≤ critW ⟨2, 1⟩)) :=
  ⟨(get_min_get_max_spec critW 1 [⟨2, 1⟩, ⟨2, 0⟩]).2.2.1
      (getMinLoop critW 1 [⟨2, 1⟩, ⟨2, 0⟩] [] 1000000000)
      (by norm_num [get_min]) (⟨2, 1⟩, 0),
    (get_min_get_max_spec critW 1 [⟨2, 1⟩, ⟨2, 0⟩]).2.2.2
      (getMaxLoop critW 1 [⟨2, 1⟩, ⟨2, 0⟩] [] 0)
      (by norm_num [get_max]) (⟨2, 1⟩, 0)⟩


/-!  C9 — combination rules, discounting, conditioning and weakening never
mutate their inputs: heap lemmas. -/

theorem hread_append (h t : Heap) (i : ℕ) (hi : i < h.length) :
    hread (h ++ t) i = hread h i := by
  unfold hread
  rw [List.getD_append _ _ _ _ hi]

theorem set_append_of_le (h : Heap) (t : Heap) (n : ℕ) (x : MF)
    (hn : h.length ≤ n) :
    (h ++ t).set n x = h ++ t.set (n - h.length) x := by
  induction h generalizing n with
  | nil => simp
  | cons a h2 ih =>
    cases n with
    | zero => simp at hn
    | succ n2 =>
      rw [show ((a :: h2) ++ t).set (n2 + 1) x = a :: ((h2 ++ t).set n2 x) from rfl,
        ih n2 (by simpa using hn)]
      simp [Nat.succ_sub_succ]

theorem hwrite_ext {h h2 : Heap} (hx : HExt h h2) (n : ℕ) (x : MF)
    (hn : h.length ≤ n) : HExt h (hwrite h2 n x) := by
  obtain ⟨t, rfl⟩ := hx
  exact ⟨t.set (n - h.length) x, set_append_of_le h t n x hn⟩

theorem HExt_trans {h1 h2 h3 : Heap} (a : HExt h1 h2) (b : HExt h2 h3) :
    HExt h1 h3 := by
  obtain ⟨t1, rfl⟩ := a
  obtain ⟨t2, rfl⟩ := b
  exact ⟨t1 ++ t2, by simp⟩

theorem HExt_length {h h2 : Heap} (hx : HExt h h2) : h.length ≤ h2.length := by
  obtain ⟨t, rfl⟩ := hx
  simp

theorem hread_of_HExt {h h2 : Heap} (hx : HExt h h2) (i : ℕ) (hi : i < h.length) :
    hread h2 i = hread h i := by
  obtain ⟨t, rfl⟩ := hx
  exact hread_append h t i hi

theorem HExt_foldl {α : Type} (h : Heap) (f : Heap → α → Heap) (l : List α)
    (hstep : ∀ hh a, HExt h hh → HExt h (f hh a)) :
    ∀ init, HExt h init → HExt h (l.foldl f init) := by
  induction l with
  | nil => exact fun init hi => hi
  | cons a t ih => exact fun init hi => ih _ (hstep init a hi)

theorem HExt_addMassH {h hh : Heap} (hx : HExt h hh) (r : ℕ) (hr : h.length ≤ r)
    (e : DElem) (v : ℚ) : HExt h (addMassH hh r e v) :=
  hwrite_ext hx r _ hr

theorem HExt_setMassH {h hh : Heap} (hx : HExt h hh) (r : ℕ) (hr : h.length ≤ r)
    (e : DElem) (v : ℚ) : HExt h (setMassH hh r e v) :=
  hwrite_ext hx r _ hr

theorem HExt_popKeyH {h hh : Heap} (hx : HExt h hh) (r : ℕ) (hr : h.length ≤ r)
    (e : DElem) : HExt h (popKeyH hh r e) :=
  hwrite_ext hx r _ hr

theorem HExt_cleanH {h hh : Heap} (hx : HExt h hh) (r : ℕ) (hr : h.length ≤ r) :
    HExt h (cleanH hh r) :=
  hwrite_ext hx r _ hr

theorem HExt_normaliseH {h hh : Heap} (hx : HExt h hh) (r : ℕ) (hr : h.length ≤ r) :
    HExt h (normaliseH hh r) :=
  hwrite_ext hx r _ hr

theorem smetsH_ext (h : Heap) (i j : ℕ) :
    HExt h (smetsH h i j).1 ∧ (smetsH h i j).2 = h.length := by
  unfold smetsH
  dsimp only [halloc]
  refine ⟨HExt_cleanH ?_ _ (le_refl _), rfl⟩
  refine HExt_foldl h _ _ ?_ _ ⟨[[]], rfl⟩
  intro hh p1 hx
  refine HExt_foldl h _ _ ?_ _ hx
  intro hh2 p2 hx2
  exact HExt_addMassH hx2 _ (le_refl _) _ _

theorem disjunctiveH_ext (h : Heap) (i j : ℕ) :
    HExt h (disjunctiveH h i j).1 ∧ (disjunctiveH h i j).2 = h.length := by
  unfold disjunctiveH
  dsimp only [halloc]
  refine ⟨HExt_cleanH ?_ _ (le_refl _), rfl⟩
  refine HExt_foldl h _ _ ?_ _ ⟨[[]], rfl⟩
  intro hh p1 hx
  refine HExt_foldl h _ _ ?_ _ hx
  intro hh2 p2 hx2
  exact HExt_addMassH hx2 _ (le_refl _) _ _

theorem duboisH_ext (h : Heap) (i j : ℕ) :
    HExt h (duboisH h i j).1 ∧ (duboisH h i j).2 = h.length := by
  unfold duboisH
  dsimp only [halloc]
  refine ⟨HExt_cleanH ?_ _ (le_refl _), rfl⟩
  refine HExt_foldl h _ _ ?_ _ ⟨[[]], rfl⟩
  intro hh p hx
  exact HExt_addMassH hx _ (le_refl _) _ _

theorem averageH_ext (h : Heap) (i j : ℕ) :
    HExt h (averageH h i j).1 ∧ (averageH h i j).2 = h.length := by
  unfold averageH
  dsimp only [halloc]
  refine ⟨hwrite_ext ?_ _ _ (le_refl _), rfl⟩
  refine HExt_foldl h _ _ ?_ _ ⟨[hread h i], rfl⟩
  intro hh p hx
  exact HExt_addMassH hx _ (le_refl _) _ _

theorem dempsterH_ext (h : Heap) (i j : ℕ) :
    HExt h (dempsterH h i j).1 ∧ h.length ≤ (dempsterH h i j).2 := by
  obtain ⟨hx, hid⟩ := smetsH_ext h i j
  unfold dempsterH
  dsimp only []
  cases hh : (hread (smetsH h i j).1 (smetsH h i j).2).head? with
  | none =>
    simp only [hh]
    exact ⟨hx, le_of_eq hid.symm⟩
  | some p0 =>
    simp only [hh]
    refine ⟨?_, le_of_eq hid.symm⟩
    exact HExt_normaliseH
      (HExt_cleanH (HExt_popKeyH hx _ (le_of_eq hid.symm) _) _ (le_of_eq hid.symm))
      _ (le_of_eq hid.symm)

theorem yagerH_ext (h : Heap) (i j : ℕ) :
    HExt h (yagerH h i j).1 ∧ h.length ≤ (yagerH h i j).2 := by
  obtain ⟨hx, hid⟩ := smetsH_ext h i j
  unfold yagerH
  dsimp only []
  cases hh : (hread (smetsH h i j).1 (smetsH h i j).2).head? with
  | none =>
    simp only [hh]
    exact ⟨hx, le_of_eq hid.symm⟩
  | some p0 =>
    simp only [hh]
    refine ⟨?_, le_of_eq hid.symm⟩
    exact HExt_popKeyH (HExt_setMassH hx _ (le_of_eq hid.symm) _ _) _
      (le_of_eq hid.symm) _

theorem murphyH_ext (h : Heap) (i j : ℕ) :
    HExt h (murphyH h i j).1 ∧ h.length ≤ (murphyH h i j).2 := by
  obtain ⟨hav, havid⟩ := averageH_ext h i j
  obtain ⟨hd, hdid⟩ := dempsterH_ext (averageH h i j).1 (averageH h i j).2 (averageH h i j).2
  unfold murphyH
  exact ⟨HExt_trans hav hd, le_trans (HExt_length hav) hdid⟩

theorem chenH_ext (h : Heap) (i j : ℕ) (c1 c2 : ℚ) :
    HExt h (chenH h i j c1 c2).1 ∧ h.length ≤ (chenH h i j c1 c2).2 := by
  unfold chenH
  dsimp only [halloc]
  have hfold : HExt h ((hread h j).foldl
      (fun hh p => addMassH hh h.length p.1 (p.2 * c2))
      ((hread h i).foldl (fun hh p => addMassH hh h.length p.1 (p.2 * c1)) (h ++ [[]]))) := by
    refine HExt_foldl h _ _ ?_ _ ?_
    · intro hh p hx
      exact HExt_addMassH hx _ (le_refl _) _ _
    · refine HExt_foldl h _ _ ?_ _ ⟨[[]], rfl⟩
      intro hh p hx
      exact HExt_addMassH hx _ (le_refl _) _ _
  obtain ⟨hd, hdid⟩ := dempsterH_ext ((hread h j).foldl
      (fun hh p => addMassH hh h.length p.1 (p.2 * c2))
      ((hread h i).foldl (fun hh p => addMassH hh h.length p.1 (p.2 * c1)) (h ++ [[]])))
    h.length h.length
  exact ⟨HExt_trans hfold hd, le_trans (HExt_length hfold) hdid⟩

theorem discountingH_ext (h : Heap) (i : ℕ) (alpha : ℚ) :
    HExt h (discountingH h i alpha).1 ∧ (discountingH h i alpha).2 = h.length := by
  unfold discountingH
  dsimp only [halloc]
  have hfold : HExt h ((hread h i).foldl
      (fun hh p => addMassH hh h.length p.1 (round6 (p.2 * (1 - alpha)))) (h ++ [[]])) := by
    refine HExt_foldl h _ _ ?_ _ ⟨[[]], rfl⟩
    intro hh p hx
    exact HExt_addMassH hx _ (le_refl _) _ _
  cases hh : (hread h i).getLast? with
  | none =>
    simp only [hh]
    exact ⟨hfold, trivial⟩
  | some pl0 =>
    simp only [hh]
    exact ⟨HExt_addMassH hfold _ (le_refl _) _ _, trivial⟩

theorem weakeningH_ext (h : Heap) (i : ℕ) (alpha : ℚ) :
    HExt h (weakeningH h i alpha).1 ∧ (weakeningH h i alpha).2 = h.length := by
  unfold weakeningH
  dsimp only [halloc]
  have hfold : HExt h ((hread h i).foldl
      (fun hh p => addMassH hh h.length p.1 (round6 (p.2 * (1 - alpha)))) (h ++ [[]])) := by
    refine HExt_foldl h _ _ ?_ _ ⟨[[]], rfl⟩
    intro hh p hx
    exact HExt_addMassH hx _ (le_refl _) _ _
  cases hh : (hread h i).getLast? with
  | none =>
    simp only [hh]
    exact ⟨hfold, trivial⟩
  | some pl0 =>
    simp only [hh]
    exact ⟨HExt_addMassH hfold _ (le_refl _) _ _, trivial⟩

theorem conditioningH_ext (h : Heap) (i : ℕ) (e : DElem) :
    HExt h (conditioningH h i e).1 ∧ h.length ≤ (conditioningH h i e).2 := by
  unfold conditioningH
  obtain ⟨hs, hsid⟩ := smetsH_ext (halloc h [(e, 1)]).1 i (halloc h [(e, 1)]).2
  have hal : HExt h (halloc h [(e, 1)]).1 := ⟨[[(e, 1)]], rfl⟩
  refine ⟨HExt_trans hal hs, ?_⟩
  rw [hsid]
  exact HExt_length hal

/-- C9: every combination rule (Smets, disjunctive, Dempster, Yager,
Dubois-Prade, average, Murphy, and Chen with its credibility weights
abstracted as parameters), as well as discounting, weakening and
conditioning, leaves the focal maps of its input objects untouched and
returns a freshly allocated object (its id is not an existing id). -/
theorem combination_rules_no_mutation (h : Heap) (i j : ℕ) (e : DElem)
    (alpha c1 c2 : ℚ) (hi : i < h.length) (hj : j < h.length) :
    (hread (smetsH h i j).1 i = hread h i ∧ hread (smetsH h i j).1 j = hread h j ∧
      h.length ≤ (smetsH h i j).2) ∧
    (hread (disjunctiveH h i j).1 i = hread h i ∧
      hread (disjunctiveH h i j).1 j = hread h j ∧ h.length ≤ (disjunctiveH h i j).2) ∧
    (hread (dempsterH h i j).1 i = hread h i ∧ hread (dempsterH h i j).1 j = hread h j ∧
      h.length ≤ (dempsterH h i j).2) ∧
    (hread (yagerH h i j).1 i = hread h i ∧ hread (yagerH h i j).1 j = hread h j ∧
      h.length ≤ (yagerH h i j).2) ∧
    (hread (duboisH h i j).1 i = hread h i ∧ hread (duboisH h i j).1 j = hread h j ∧
      h.length ≤ (duboisH h i j).2) ∧
    (hread (averageH h i j).1 i = hread h i ∧ hread (averageH h i j).1 j = hread h j ∧
      h.length ≤ (averageH h i j).2) ∧
    (hread (murphyH h i j).1 i = hread h i ∧ hread (murphyH h i j).1 j = hread h j ∧
      h.length ≤ (murphyH h i j).2) ∧
    (hread (chenH h i j c1 c2).1 i = hread h i ∧
      hread (chenH h i j c1 c2).1 j = hread h j ∧ h.length ≤ (chenH h i j c1 c2).2) ∧
    (hread (discountingH h i alpha).1 i = hread h i ∧
      hread (discountingH h i alpha).1 j = hread h j ∧
      h.length ≤ (discountingH h i alpha).2) ∧
    (hread (weakeningH h i alpha).1 i = hread h i ∧
      hread (weakeningH h i alpha).1 j = hread h j ∧
      h.length ≤ (weakeningH h i alpha).2) ∧
    (hread (conditioningH h i e).1 i = hread h i ∧
      hread (conditioningH h i e).1 j = hread h j ∧
      h.length ≤ (conditioningH h i e).2) := by
  obtain ⟨x1, d1⟩ := smetsH_ext h i j
  obtain ⟨x2, d2⟩ := disjunctiveH_ext h i j
  obtain ⟨x3, d3⟩ := dempsterH_ext h i j
  obtain ⟨x4, d4⟩ := yagerH_ext h i j
  obtain ⟨x5, d5⟩ := duboisH_ext h i j
  obtain ⟨x6, d6⟩ := averageH_ext h i j
  obtain ⟨x7, d7⟩ := murphyH_ext h i j
  obtain ⟨x8, d8⟩ := chenH_ext h i j c1 c2
  obtain ⟨x9, d9⟩ := discountingH_ext h i alpha
  obtain ⟨x10, d10⟩ := weakeningH_ext h i alpha
  obtain ⟨x11, d11⟩ := conditioningH_ext h i e
  exact ⟨⟨hread_of_HExt x1 i hi, hread_of_HExt x1 j hj, le_of_eq d1.symm⟩,
    ⟨hread_of_HExt x2 i hi, hread_of_HExt x2 j hj, le_of_eq d2.symm⟩,
    ⟨hread_of_HExt x3 i hi, hread_of_HExt x3 j hj, d3⟩,
    ⟨hread_of_HExt x4 i hi, hread_of_HExt x4 j hj, d4⟩,
    ⟨hread_of_HExt x5 i hi, hread_of_HExt x5 j hj, le_of_eq d5.symm⟩,
    ⟨hread_of_HExt x6 i hi, hread_of_HExt x6 j hj, le_of_eq d6.symm⟩,
    ⟨hread_of_HExt x7 i hi, hread_of_HExt x7 j hj, d7⟩,
    ⟨hread_of_HExt x8 i hi, hread_of_HExt x8 j hj, d8⟩,
    ⟨hread_of_HExt x9 i hi, hread_of_HExt x9 j hj, le_of_eq d9.symm⟩,
    ⟨hread_of_HExt x10 i hi, hread_of_HExt x10 j hj, le_of_eq d10.symm⟩,
    ⟨hread_of_HExt x11 i hi, hread_of_HExt x11 j hj, d11⟩⟩

/-- Witness for `combination_rules_no_mutation` on a two-object heap. -/
theorem combination_rules_no_mutation_witness :
    (hread (smetsH [mC5a, mC5b] 0 1).1 0 = hread [mC5a, mC5b] 0 ∧
      hread (smetsH [mC5a, mC5b] 0 1).1 1 = hread [mC5a, mC5b] 1 ∧
      [mC5a, mC5b].length ≤ (smetsH [mC5a, mC5b] 0 1).2) ∧
    (hread (disjunctiveH [mC5a, mC5b] 0 1).1 0 = hread [mC5a, mC5b] 0 ∧
      hread (disjunctiveH [mC5a, mC5b] 0 1).1 1 = hread [mC5a, mC5b] 1 ∧
      [mC5a, mC5b].length ≤ (disjunctiveH [mC5a, mC5b] 0 1).2) ∧
    (hread (dempsterH [mC5a, mC5b] 0 1).1 0 = hread [mC5a, mC5b] 0 ∧
      hread (dempsterH [mC5a, mC5b] 0 1).1 1 = hread [mC5a, mC5b] 1 ∧
      [mC5a, mC5b].length ≤ (dempsterH [mC5a, mC5b] 0 1).2) ∧
    (hread (yagerH [mC5a, mC5b] 0 1).1 0 = hread [mC5a, mC5b] 0 ∧
      hread (yagerH [mC5a, mC5b] 0 1).1 1 = hread [mC5a, mC5b] 1 ∧
      [mC5a, mC5b].length ≤ (yagerH [mC5a, mC5b] 0 1).2) ∧
    (hread (duboisH [mC5a, mC5b] 0 1).1 0 = hread [mC5a, mC5b] 0 ∧
      hread (duboisH [mC5a, mC5b] 0 1).1 1 = hread [mC5a, mC5b] 1 ∧
      [mC5a, mC5b].length ≤ (duboisH [mC5a, mC5b] 0 1).2) ∧
    (hread (averageH [mC5a, mC5b] 0 1).1 0 = hread [mC5a, mC5b] 0 ∧
      hread (averageH [mC5a, mC5b] 0 1).1 1 = hread [mC5a, mC5b] 1 ∧
      [mC5a, mC5b].length ≤ (averageH [mC5a, mC5b] 0 1).2) ∧
    (hread (murphyH [mC5a, mC5b] 0 1).1 0 = hread [mC5a, mC5b] 0 ∧
      hread (murphyH [mC5a, mC5b] 0 1).1 1 = hread [mC5a, mC5b] 1 ∧
      [mC5a, mC5b].length ≤ (murphyH [mC5a, mC5b] 0 1).2) ∧
    (hread (chenH [mC5a, mC5b] 0 1 (1/2) (1/2)).1 0 = hread [mC5a, mC5b] 0 ∧
      hread (chenH [mC5a, mC5b] 0 1 (1/2) (1/2)).1 1 = hread [mC5a, mC5b] 1 ∧
      [mC5a, mC5b].length ≤ (chenH [mC5a, mC5b] 0 1 (1/2) (1/2)).2) ∧
    (hread (discountingH [mC5a, mC5b] 0 (1/2)).1 0 = hread [mC5a, mC5b] 0 ∧
      hread (discountingH [mC5a, mC5b] 0 (1/2)).1 1 = hread [mC5a, mC5b] 1 ∧
      [mC5a, mC5b].length ≤ (discountingH [mC5a, mC5b] 0 (1/2)).2) ∧
    (hread (weakeningH [mC5a, mC5b] 0 (1/2)).1 0 = hread [mC5a, mC5b] 0 ∧
      hread (weakeningH [mC5a, mC5b] 0 (1/2)).1 1 = hread [mC5a, mC5b] 1 ∧
      [mC5a, mC5b].length ≤ (weakeningH [mC5a, mC5b] 0 (1/2)).2) ∧
    (hread (conditioningH [mC5a, mC5b] 0 ⟨3, 2⟩).1 0 = hread [mC5a, mC5b] 0 ∧
      hread (conditioningH [mC5a, mC5b] 0 ⟨3, 2⟩).1 1 = hread [mC5a, mC5b] 1 ∧
      [mC5a, mC5b].length ≤ (conditioningH [mC5a, mC5b] 0 ⟨3, 2⟩).2) :=
  combination_rules_no_mutation [mC5a, mC5b] 0 1 ⟨3, 2⟩ (1/2) (1/2) (1/2)
    (by decide) (by decide)

end THEGAME
